import Mathlib

/-!
Verification of the nss_core content-addressed storage engine.

The Rust sources are shallowly embedded.  Conventions:
  * Rust `String` values are modelled as `List Char` (split on `b'\n'` of a
    valid UTF-8 buffer agrees with splitting the character list on `'\n'`,
    since `0x0A` never occurs inside a multi-byte UTF-8 sequence, and
    `String::from_utf8(...).unwrap()` of such a slice is the identity at the
    character level);
  * raw byte buffers are modelled as `List Nat`, each element one byte;
  * machine-integer wrap-around is made explicit with `% 2 ^ 64` where the
    Rust release-mode semantics wraps;
  * a Rust function that can panic is modelled with an `Option` result where
    `none` stands for the panic; a `Result` is modelled with `Except`.
-/

set_option maxRecDepth 40000

namespace Nss

/-! ## Decimal rendering and parsing (Rust `format!("{}")` / `str::parse`) -/

/-- The ASCII character of a decimal digit. -/
def digitChar (k : Nat) : Char :=
  match k with
  | 0 => '0' | 1 => '1' | 2 => '2' | 3 => '3' | 4 => '4'
  | 5 => '5' | 6 => '6' | 7 => '7' | 8 => '8' | _ => '9'

/-- Decimal digits of `n`, least significant first, empty for `0`.  The
fuel bounds the digit count; 40 digits cover every machine integer the
sources render (`u32`, `i64`, `usize`). -/
def natDigitsAux : Nat → Nat → List Char
  | _, 0 => []
  | 0, _ + 1 => []
  | f + 1, m + 1 => digitChar ((m + 1) % 10) :: natDigitsAux f ((m + 1) / 10)

/-- `format!("{}", n)` for an unsigned integer: decimal, no leading zeros. -/
def natToStr (n : Nat) : List Char :=
  if n = 0 then ['0'] else (natDigitsAux 40 n).reverse

/-- `format!("{}", i)` for a signed integer. -/
def intToStr (i : Int) : List Char :=
  if i < 0 then '-' :: natToStr (-i).toNat else natToStr i.toNat

/-- The value of an ASCII decimal digit. -/
def digitVal (c : Char) : Option Nat :=
  if '0' ≤ c ∧ c ≤ '9' then some (c.toNat - 48) else none

/-- Accumulating decimal parser: fails on the first non-digit. -/
def parseNatAux (acc : Nat) : List Char → Option Nat
  | [] => some acc
  | c :: cs =>
    match digitVal c with
    | some d => parseNatAux (acc * 10 + d) cs
    | none => none

/-- Parse a non-empty all-digit string. -/
def parseNat : List Char → Option Nat
  | [] => none
  | l => parseNatAux 0 l

/-- Model of Rust `str::parse::<i64>`: optional sign then at least one
digit.  (The `i64` overflow check is not modelled; every value this
development feeds to the parser is a rendered `i64`.) -/
def parseI64 : List Char → Option Int
  | [] => none
  | c :: ds =>
    if c = '-' then (parseNat ds).map (fun n => -(n : Int))
    else if c = '+' then (parseNat ds).map (fun n => (n : Int))
    else (parseNat (c :: ds)).map (fun n => (n : Int))

/-! ## UTF-8 encoding (Rust `str::as_bytes` / `String::len`) -/

/-- UTF-8 bytes of one Unicode scalar value. -/
def utf8Bytes (c : Char) : List Nat :=
  let n := c.toNat
  if n < 128 then [n]
  else if n < 2048 then [192 + n / 64, 128 + n % 64]
  else if n < 65536 then [224 + n / 4096, 128 + n / 64 % 64, 128 + n % 64]
  else [240 + n / 262144, 128 + n / 4096 % 64, 128 + n / 64 % 64, 128 + n % 64]

/-- UTF-8 bytes of a string. -/
def strBytes (l : List Char) : List Nat := (l.map utf8Bytes).flatten

/-- Rust `String::len`: the UTF-8 byte count. -/
def utf8Len (l : List Char) : Nat := (strBytes l).length

/-! ## Splitting (Rust `slice::split` on `b'\n'`, `str::split_whitespace`) -/

/-- `content.split(|&x| x == b'\n')`: the pieces between newline bytes,
keeping empty pieces (an empty input yields one empty piece). -/
def splitOnNl : List Char → List (List Char)
  | [] => [[]]
  | c :: rest =>
    if c = '\n' then [] :: splitOnNl rest
    else
      match splitOnNl rest with
      | [] => [[c]]
      | h :: t => (c :: h) :: t

/-- The White_Space code points: Rust `char::is_whitespace`. -/
def isRustWs (c : Char) : Bool :=
  c.toNat ∈ [0x9, 0xA, 0xB, 0xC, 0xD, 0x20, 0x85, 0xA0, 0x1680,
    0x2000, 0x2001, 0x2002, 0x2003, 0x2004, 0x2005, 0x2006, 0x2007,
    0x2008, 0x2009, 0x200A, 0x2028, 0x2029, 0x202F, 0x205F, 0x3000]

/-- The tokenizer behind `str::split_whitespace`: `cur` is the (possibly
empty) token being accumulated; whitespace closes it, everything else
extends it, and a non-empty final token is emitted at the end. -/
def splitWsGo : List Char → List Char → List (List Char)
  | cur, [] => if cur = [] then [] else [cur]
  | cur, c :: cs =>
    if isRustWs c then
      if cur = [] then splitWsGo [] cs else cur :: splitWsGo [] cs
    else splitWsGo (cur ++ [c]) cs

/-- Rust `str::split_whitespace`: the maximal runs of non-whitespace. -/
def splitWs (l : List Char) : List (List Char) :=
  splitWsGo [] l

/-- A single non-empty whitespace-free word: the shape of a field that
`split_whitespace`-based decoding reads back unchanged. -/
def wsToken (l : List Char) : Prop :=
  l ≠ [] ∧ ∀ c ∈ l, isRustWs c = false

instance (l : List Char) : Decidable (wsToken l) := by
  unfold wsToken
  infer_instance

/-! ## Commit objects (src/struct_set/commit.rs) -/

/-- `chrono::DateTime<Utc>` down to what the codec touches: whole seconds
(`timestamp()`) and the sub-second part. -/
structure UtcDateTime where
  sec : Int
  nsec : Nat
  deriving DecidableEq, Repr

/-- The `Commit` struct.  String fields are character lists. -/
structure Commit where
  tree_hash : List Char
  parents : List (List Char)
  author : List Char
  committer : List Char
  date : UtcDateTime
  message : List Char
  deriving DecidableEq, Repr

/-- The per-parent lines `format!("parent {}\n", s)`, concatenated. -/
def Commit.parentsText (ps : List (List Char)) : List Char :=
  (ps.map (fun s => "parent ".toList ++ s ++ ['\n'])).flatten

/-- The commit body
`format!("{}\n{}{}\n{}\n{}\n\n{}\n", tree, parents, author, committer, date, message)`. -/
def Commit.contentText (c : Commit) : List Char :=
  ("tree ".toList ++ c.tree_hash) ++ '\n' ::
    (Commit.parentsText c.parents ++
      (("author ".toList ++ c.author) ++ '\n' ::
        (("committer ".toList ++ c.committer) ++ '\n' ::
          (("date ".toList ++ intToStr c.date.sec) ++ '\n' :: '\n' ::
            (c.message ++ ['\n'])))))

/-- `Commit::as_bytes`: `format!("commit {}\0{}", content.len(), content)`.
`content.len()` is the UTF-8 byte count of the body. -/
def Commit.as_bytes (c : Commit) : List Char :=
  "commit ".toList ++ natToStr (utf8Len (Commit.contentText c)) ++
    '\x00' :: Commit.contentText c

/-- The mutable locals of `Commit::from_rawobject`. -/
structure CommitAcc where
  tree_hash : List Char
  parents : List (List Char)
  author : List Char
  committer : List Char
  date : List Char
  message : List Char

/-- One iteration of the `for_each` over the non-empty lines: classify the
line by its first whitespace token.  `none` models the `unwrap` panics on a
line with no token or a keyword line with no second token. -/
def Commit.procLine (st : CommitAcc) (l : List Char) : Option CommitAcc :=
  match splitWs l with
  | [] => none
  | t :: rest =>
    if t = "tree".toList then
      match rest with
      | [] => none
      | x :: _ => some { st with tree_hash := x }
    else if t = "parent".toList then
      match rest with
      | [] => none
      | x :: _ => some { st with parents := st.parents ++ [x] }
    else if t = "author".toList then
      match rest with
      | [] => none
      | x :: _ => some { st with author := x }
    else if t = "committer".toList then
      match rest with
      | [] => none
      | x :: _ => some { st with committer := x }
    else if t = "date".toList then
      match rest with
      | [] => none
      | x :: _ => some { st with date := x }
    else
      some { st with message := t }

/-- The fold of `procLine` over the line list. -/
def Commit.procLines : List (List Char) → CommitAcc → Option CommitAcc
  | [], st => some st
  | l :: ls, st =>
    match Commit.procLine st l with
    | none => none
    | some st2 => Commit.procLines ls st2

/-- `Commit::from_rawobject`: split the body on newlines, drop empty lines,
classify each line, then parse the date seconds.  (`Utc.timestamp_opt`
accepts every timestamp this development produces, so its range check is
not modelled.) -/
def Commit.from_rawobject (content : List Char) : Option Commit :=
  let all_line := (splitOnNl content).filter (fun l => l ≠ [])
  match Commit.procLines all_line ⟨[], [], [], [], [], []⟩ with
  | none => none
  | some st =>
    match parseI64 st.date with
    | none => none
    | some sec =>
      some ⟨st.tree_hash, st.parents, st.author, st.committer, ⟨sec, 0⟩,
        st.message⟩

/-! ## The object container (src/struct_set/object.rs) -/

/-- The `Blob` struct (its content at the character level, as used through
`Object::from_content`). -/
structure Blob where
  content : List Char
  deriving DecidableEq, Repr

/-- A tree entry as read back by the character-level tree decoder. -/
structure EntryC where
  mode : Nat
  name : List Char
  hash : List Char
  deriving DecidableEq, Repr

/-- The `Tree` struct as read back by the character-level decoder. -/
structure TreeC where
  entries : List EntryC
  deriving DecidableEq, Repr

/-- `Entry::from_rawobject`: `meta` is split on whitespace into
`[mode, name]`; out-of-range accesses and a non-numeric mode panic. -/
def EntryC.from_rawobject (meta : List Char) (hash : List Char) :
    Option EntryC :=
  match splitWs meta with
  | m :: n :: _ =>
    match parseNat m with
    | some mode => some ⟨mode, n, hash⟩
    | none => none
  | _ => none

/-- The scan of `split_content`: cut before each `'\0'` found at least 20
places beyond the previous cut, stopping when fewer than 20 places remain. -/
def splitContentAux (contents : List Char) (index : Nat) (fuel : Nat) :
    List (List Char) :=
  match fuel with
  | 0 => [contents.drop index]
  | fuel + 1 =>
    match ((contents.drop (index + 20)).findIdx? (fun b => b = '\x00')) with
    | none => [contents.drop index]
    | some bIndex =>
      let splitIndex := index + 20 + bIndex
      ((contents.drop index).take (splitIndex - index)) ::
        (if splitIndex + 1 + 20 > contents.length then
          [contents.drop (splitIndex + 1)]
        else
          splitContentAux contents (splitIndex + 1) fuel)

/-- `split_content`; `none` models the panic of the slice
`contents[index + 20..]` on a body shorter than 20 bytes (afterwards the
explicit break keeps the slice in range). -/
def splitContent (contents : List Char) : Option (List (List Char)) :=
  if contents.length < 20 then none
  else some (splitContentAux contents 0 contents.length)

/-- The `try_fold` body of `Tree::from_rawobject`: each piece after the
first starts with the previous entry's 20-byte hash followed by the next
entry's header. -/
def TreeC.foldPieces (header : List Char) (pieces : List (List Char))
    (acc : List EntryC) : Option (List EntryC) :=
  match pieces with
  | [] => some acc
  | x :: rest =>
    let hash := x.take 20
    let nextHeader := x.drop 20
    match EntryC.from_rawobject header hash with
    | none => none
    | some e => TreeC.foldPieces nextHeader rest (acc ++ [e])

/-- `Tree::from_rawobject` at the character level: split off the header
before the first `'\0'`, scan the body, fold the pieces into entries, then
sort by name.  (Only the dispatch of `Object::from_content` reaches this
decoder in the claims below.) -/
def TreeC.from_rawobject (content : List Char) : Option TreeC :=
  match content.findIdx? (fun b => b = '\x00') with
  | none => none
  | some i =>
    let header := content.take i
    let body := content.drop (i + 1)
    match splitContent body with
    | none => none
    | some pieces =>
      match TreeC.foldPieces header pieces [] with
      | none => none
      | some es =>
        some ⟨es.mergeSort (fun a b => decide (a.name ≤ b.name))⟩

/-- The `Object` enum. -/
inductive Object where
  | Blob : Blob → Object
  | Tree : TreeC → Object
  | Commit : Commit → Object
  deriving DecidableEq, Repr

/-- `Object::from_content`: split at the first NUL into header and content,
read the object type as the text before the first space of the header, and
dispatch.  `none` models the panics (`unwrap` on a buffer with no NUL,
`todo!()` on an unknown type). -/
def Object.from_content (raw : List Char) : Option Object :=
  if ('\x00' ∈ raw) then
    let header := raw.takeWhile (fun b => b ≠ '\x00')
    let content := (raw.dropWhile (fun b => b ≠ '\x00')).tail
    let objectType := header.takeWhile (fun ch => ch ≠ ' ')
    if objectType = "blob".toList then some (Object.Blob ⟨content⟩)
    else if objectType = "tree".toList then
      (TreeC.from_rawobject content).map Object.Tree
    else if objectType = "commit".toList then
      (Commit.from_rawobject content).map Object.Commit
    else none
  else none

/-! ## Tree objects at the byte level (src/struct_set/tree.rs) -/

/-- The `Entry` struct: `mode`, `name` (an `OsString`, here the character
list of a UTF-8 path component), `hash` (raw bytes). -/
structure Entry where
  mode : Nat
  name : List Char
  hash : List Nat
  deriving DecidableEq, Repr

/-- `Entry::as_bytes`: `format!("{} {}\0", mode, name)` as UTF-8 followed by
the raw hash bytes. -/
def Entry.as_bytes (e : Entry) : List Nat :=
  strBytes (natToStr e.mode ++ ' ' :: (e.name ++ ['\x00'])) ++ e.hash

/-- The `Tree` struct: the entry list exactly as stored. -/
structure Tree where
  entries : List Entry
  deriving DecidableEq, Repr

/-- `Tree::from_entries`: stores the entries as given, without sorting. -/
def Tree.from_entries (entries : List Entry) : Tree :=
  ⟨entries⟩

/-- `Tree::as_bytes`: concatenate the entry serializations in stored order
under the header `format!("tree {}\0", content.len())`. -/
def Tree.as_bytes (t : Tree) : List Nat :=
  let content := (t.entries.map Entry.as_bytes).flatten
  strBytes ("tree ".toList ++ natToStr content.length ++ ['\x00']) ++ content

/-! ## The staging index (src/struct_set/metadata.rs, src/struct_set/index.rs) -/

/-- Big-endian bytes of a `u32` (wrapping above `2 ^ 32`, as the Rust `u32`
type makes higher values unrepresentable). -/
def toBE32 (n : Nat) : List Nat :=
  [n / 2 ^ 24 % 256, n / 2 ^ 16 % 256, n / 2 ^ 8 % 256, n % 256]

/-- Big-endian bytes of a `u16`. -/
def toBE16 (n : Nat) : List Nat :=
  [n / 2 ^ 8 % 256, n % 256]

/-- The value of a big-endian byte string. -/
def beVal (bs : List Nat) : Nat :=
  bs.foldl (fun acc b => acc * 256 + b) 0

/-- The slice `buf[a..b]`; `none` models the out-of-range panic. -/
def sliceL (buf : List Nat) (a b : Nat) : Option (List Nat) :=
  if a ≤ b ∧ b ≤ buf.length then some ((buf.drop a).take (b - a)) else none

/-- `BigEndian::read_u32(&buf[off..off + 4])`. -/
def readBE32 (buf : List Nat) (off : Nat) : Option Nat :=
  (sliceL buf off (off + 4)).map beVal

/-- `BigEndian::read_u16(&buf[off..off + 2])`. -/
def readBE16 (buf : List Nat) (off : Nat) : Option Nat :=
  (sliceL buf off (off + 2)).map beVal

/-- The `FileMeta` struct; every numeric field is a `u32` except the `u16`
`filename_size`; `hash` and `filename` are byte strings (`filename` the
UTF-8 bytes of the stored path). -/
structure FileMeta where
  ctime : Nat
  ctime_nsec : Nat
  mtime : Nat
  mtime_nsec : Nat
  dev : Nat
  ino : Nat
  mode : Nat
  uid : Nat
  gid : Nat
  filesize : Nat
  hash : List Nat
  filename_size : Nat
  filename : List Nat
  deriving DecidableEq, Repr

/-- `FileMeta::as_bytes`: ten big-endian `u32` fields, the 20 hash bytes,
the big-endian `u16` name length, then the raw filename bytes. -/
def FileMeta.as_bytes (f : FileMeta) : List Nat :=
  toBE32 f.ctime ++ toBE32 f.ctime_nsec ++ toBE32 f.mtime ++
    toBE32 f.mtime_nsec ++ toBE32 f.dev ++ toBE32 f.ino ++ toBE32 f.mode ++
    toBE32 f.uid ++ toBE32 f.gid ++ toBE32 f.filesize ++ f.hash ++
    toBE16 f.filename_size ++ f.filename

/-- `FileMeta::from_rawindex`: fixed-offset reads; `none` models the slice
panics on a short buffer. -/
def FileMeta.from_rawindex (buf : List Nat) : Option FileMeta := do
  let ctime ← readBE32 buf 0
  let ctime_nsec ← readBE32 buf 4
  let mtime ← readBE32 buf 8
  let mtime_nsec ← readBE32 buf 12
  let dev ← readBE32 buf 16
  let ino ← readBE32 buf 20
  let mode ← readBE32 buf 24
  let uid ← readBE32 buf 28
  let gid ← readBE32 buf 32
  let filesize ← readBE32 buf 36
  let hash ← sliceL buf 40 60
  let filename_size ← readBE16 buf 60
  let filename ← sliceL buf 62 (62 + filename_size)
  pure ⟨ctime, ctime_nsec, mtime, mtime_nsec, dev, ino, mode, uid, gid,
    filesize, hash, filename_size, filename⟩

/-- The `Index` struct. -/
structure Index where
  version : Nat
  filemetas : List FileMeta
  deriving DecidableEq, Repr

/-- `Index::empty()`: version 1, no records. -/
def Index.empty : Index :=
  ⟨1, []⟩

/-- `Index::default()` from `derive(Default)`: `u32::default()` is `0`. -/
def Index.default : Index :=
  ⟨0, []⟩

/-- The module-level `padding` helper, with the wrap-around of release-mode
`usize` arithmetic explicit (`size - 2` underflows for `size < 2`). -/
def padding (size : Nat) : Nat :=
  let u := 2 ^ 64
  let floor := ((size % u + u - 2) % u) / 8
  let target := ((floor + 1) * 8 + 2) % u
  (target % u + u - size % u) % u

/-- `<Index as IndexVesion1>::as_bytes`: `"DIRC"`, version, entry count
(as `u32`), then each record padded with NULs to the next multiple of 8
beyond `62 + filename_size`. -/
def Index.as_bytes (i : Index) : List Nat :=
  let header := strBytes "DIRC".toList ++ toBE32 i.version ++
    toBE32 i.filemetas.length
  let recs := i.filemetas.map (fun f =>
    let len := 62 + f.filename_size
    FileMeta.as_bytes f ++ List.replicate (8 - len % 8) 0)
  header ++ recs.flatten

/-- The record loop of `Index::from_rawindex`: read `filename_size` at
offset `start + 60`, decode the record slice, then step over the padding. -/
def Index.fromRawAux (buf : List Nat) :
    Nat → Nat → List FileMeta → Option Index
  | 0, _, acc => some ⟨1, acc⟩
  | n + 1, start, acc => do
    let nameSize ← readBE16 buf (start + 60)
    let recBytes ← sliceL buf start (start + 62 + nameSize)
    let fm ← FileMeta.from_rawindex recBytes
    Index.fromRawAux buf n (start + 62 + nameSize + padding nameSize)
      (acc ++ [fm])

/-- `<Index as IndexVesion1>::from_rawindex`: an empty buffer yields
`Index::default()`; otherwise the entry count is read at offset 8 (the
magic and version bytes are never examined) and that many records are
decoded.  `none` models the slice panics. -/
def Index.from_rawindex (buf : List Nat) : Option Index :=
  if buf = [] then some Index.default
  else do
    let entryNum ← readBE32 buf 8
    Index.fromRawAux buf entryNum 12 []

/-- Well-formedness of a record, exactly what the Rust types and the claim
enforce: the numeric fields fit their machine types, the hash is 20 bytes,
`filename_size` is the byte length of the non-empty filename. -/
def FileMeta.WF (f : FileMeta) : Prop :=
  f.ctime < 2 ^ 32 ∧ f.ctime_nsec < 2 ^ 32 ∧ f.mtime < 2 ^ 32 ∧
    f.mtime_nsec < 2 ^ 32 ∧ f.dev < 2 ^ 32 ∧ f.ino < 2 ^ 32 ∧
    f.mode < 2 ^ 32 ∧ f.uid < 2 ^ 32 ∧ f.gid < 2 ^ 32 ∧
    f.filesize < 2 ^ 32 ∧ f.hash.length = 20 ∧ f.filename_size < 2 ^ 16 ∧
    f.filename.length = f.filename_size ∧ f.filename ≠ []

instance (f : FileMeta) : Decidable (FileMeta.WF f) := by
  unfold FileMeta.WF
  infer_instance

/-- One encoded record of `Index::as_bytes`: the serialized `FileMeta`
followed by its NUL padding (the body of the `for` loop). -/
def encodeRec (f : FileMeta) : List Nat :=
  FileMeta.as_bytes f ++ List.replicate (8 - (62 + f.filename_size) % 8) 0

/-! ## Index diff (src/struct_set/diff.rs, src/struct_set/index.rs) -/

/-- The `DIffTag` enum (source spelling). -/
inductive DIffTag where
  | Delete
  | Insert
  | Equal
  | Replace
  deriving DecidableEq, Repr

/-- Insert-or-replace in an association list: the model of
`HashMap::insert` semantics used when collecting pairs (the value of an
existing key is replaced). -/
def upsert {K V : Type} [DecidableEq K] :
    List (K × V) → K → V → List (K × V)
  | [], k, v => [(k, v)]
  | (k0, v0) :: rest, k, v =>
    if k0 = k then (k0, v) :: rest else (k0, v0) :: upsert rest k v

/-- Collect `(key, value)` pairs as a `HashMap` would: later pairs replace
the values of earlier equal keys.  (Real `HashMap` iteration order is
arbitrary; this model fixes first-insertion order, which the claims do not
depend on.) -/
def mapOfPairs {K V : Type} [DecidableEq K] (ps : List (K × V)) :
    List (K × V) :=
  ps.foldl (fun m kv => upsert m kv.1 kv.2) []

/-- `HashMap::get`. -/
def lookupKV {K V : Type} [DecidableEq K] :
    List (K × V) → K → Option V
  | [], _ => none
  | (k0, v0) :: rest, k => if k0 = k then some v0 else lookupKV rest k

/-- The tag computed for one old key by the first `for_each` of `diff`
(the closure body, factored out so the lemmas below can name it). -/
def diffTagLine (newm : List (List Nat × List Nat))
    (kv : List Nat × List Nat) : DIffTag × List Nat :=
  match lookupKV newm kv.1 with
  | none => (DIffTag.Delete, kv.1)
  | some v2 =>
    if v2 = kv.2 then (DIffTag.Equal, kv.1) else (DIffTag.Replace, kv.1)

/-- `<Index as Diff<Index, OsString>>::diff(&self, vs)`: `self` supplies
`new_metas`, `vs` supplies `old_metas`; every old key is tagged Delete /
Equal / Replace and every new-only key Insert. -/
def Index.diff (self vs : Index) : List (DIffTag × List Nat) :=
  let new_metas := mapOfPairs (self.filemetas.map (fun f =>
    (f.filename, f.hash)))
  let old_metas := mapOfPairs (vs.filemetas.map (fun f =>
    (f.filename, f.hash)))
  (old_metas.map (fun kv =>
    match lookupKV new_metas kv.1 with
    | none => (DIffTag.Delete, kv.1)
    | some v2 =>
      if v2 = kv.2 then (DIffTag.Equal, kv.1) else (DIffTag.Replace, kv.1)))
  ++ new_metas.filterMap (fun kv =>
    if (lookupKV old_metas kv.1).isNone then some (DIffTag.Insert, kv.1)
    else none)

/-! ## The commit graph (src/structures/commit_graph.rs) -/

/-- `Iterator::position(|x| x == &v)`: the index of the first occurrence. -/
def posOf {α : Type} [DecidableEq α] : List α → α → Option Nat
  | [], _ => none
  | a :: as, v => if a = v then some 0 else (posOf as v).map (· + 1)

/-- The `Graph` struct: an arena of vertex values and directed edges given
by arena indices (`VertexIndex` unwrapped to `Nat`). -/
structure Graph (α : Type) where
  vertexs : List α
  edges : List (Nat × Nat)
  deriving DecidableEq, Repr

/-- `Graph::new`. -/
def Graph.new {α : Type} : Graph α :=
  ⟨[], []⟩

/-- `Graph::add_vertex`: reuse the index of an equal value, else push. -/
def Graph.add_vertex {α : Type} [DecidableEq α] (g : Graph α) (v : α) :
    Graph α × Nat :=
  match posOf g.vertexs v with
  | some i => (g, i)
  | none => (⟨g.vertexs ++ [v], g.edges⟩, g.vertexs.length)

/-- `Graph::add_edges`: edges are appended, never deduplicated. -/
def Graph.add_edges {α : Type} (g : Graph α) (s e : Nat) : Graph α :=
  ⟨g.vertexs, g.edges ++ [(s, e)]⟩

/-- `Graph::get_vertex_id`. -/
def Graph.get_vertex_id {α : Type} [DecidableEq α] (g : Graph α) (v : α) :
    Option Nat :=
  posOf g.vertexs v

/-- The edge scan of one BFS iteration: for every edge out of `cur` whose
target is unvisited, mark it and queue it at distance `d + 1`.  `none`
models the panic of `visited[edge.end_id.0]` on an out-of-range index. -/
def expand : List (Nat × Nat) → Nat → Nat → List Bool →
    Option (List Bool × List (Nat × Nat))
  | [], _, _, visited => some (visited, [])
  | (s, e) :: rest, cur, d, visited =>
    if s = cur then
      match visited.get? e with
      | none => none
      | some b =>
        if b then expand rest cur d visited
        else
          match expand rest cur d (visited.set e true) with
          | none => none
          | some (v2, q) => some (v2, (e, d + 1) :: q)
    else expand rest cur d visited

/-- The BFS loop of `Graph::distance`.  The fuel is the vertex count; the
measure argument below shows that is always enough, so the fuel branch
(`none` on exhaustion with a non-empty queue) is never taken on the states
`Graph.distance` builds. -/
def bfsLoop (edges : List (Nat × Nat)) (endId : Nat) :
    Nat → List Bool → List (Nat × Nat) → Option (Option Nat)
  | _, _, [] => some none
  | 0, _, _ :: _ => none
  | fuel + 1, visited, (cur, d) :: rest =>
    if cur = endId then some (some d)
    else
      match expand edges cur d visited with
      | none => none
      | some (v2, pushes) => bfsLoop edges endId fuel v2 (rest ++ pushes)

/-- `Graph::distance`: `None` (inner) when either value is absent or the
target is unreachable; the outer `none` models a panic inside the loop. -/
def Graph.distance {α : Type} [DecidableEq α] (g : Graph α)
    (start_value end_value : α) : Option (Option Nat) :=
  match posOf g.vertexs start_value, posOf g.vertexs end_value with
  | some si, some ei =>
    bfsLoop g.edges ei g.vertexs.length
      ((List.replicate g.vertexs.length false).set si true) [(si, 0)]
  | _, _ => some none

/-- The summand of `common_vertex_value`:
`self.distance(s1, x).unwrap() + another.distance(s2, x).unwrap()`; `none`
models either a panic inside `distance` or a failing `unwrap`. -/
def sumDist {α : Type} [DecidableEq α] (g another : Graph α)
    (s1 s2 x : α) : Option Nat := do
  let r1 ← Graph.distance g s1 x
  let d1 ← r1
  let r2 ← Graph.distance another s2 x
  let d2 ← r2
  pure (d1 + d2)

/-- The mapped intersection list `(distance, value)`, propagating panics. -/
def distPairs {α : Type} [DecidableEq α] (g another : Graph α)
    (s1 s2 : α) : List α → Option (List (Nat × α))
  | [] => some []
  | x :: xs =>
    match sumDist g another s1 s2 x with
    | none => none
    | some d => (distPairs g another s1 s2 xs).map (fun t => (d, x) :: t)

/-- `Iterator::min_by_key`: the first element with minimal key. -/
def minByKey {α : Type} : List (Nat × α) → Option (Nat × α)
  | [] => none
  | p :: rest =>
    match minByKey rest with
    | none => some p
    | some q => if p.1 ≤ q.1 then some p else some q

/-- `Graph::common_vertex_value`: intersect the value sets, sum the two BFS
distances from the first-inserted vertices, take the minimum.  The outer
`none` models the panics: `vertexs[0]` on an empty arena and the `unwrap`
of an unreachable distance.  (`HashSet` iteration order is arbitrary; this
model iterates the intersection in first-graph insertion order, which the
claims below do not depend on.) -/
def Graph.common_vertex_value {α : Type} [DecidableEq α]
    (g another : Graph α) : Option (Option α) :=
  match g.vertexs, another.vertexs with
  | [], _ => none
  | _ :: _, [] => none
  | s1 :: _, s2 :: _ =>
    let commons := g.vertexs.filter (fun v => decide (v ∈ another.vertexs))
    match distPairs g another s1 s2 commons with
    | none => none
    | some pairs => some ((minByKey pairs).map (fun p => p.2))

/-! ## Abbreviated-hash resolution (src/repo/repository.rs) -/

/-- The `ObjectError` enum of src/repo/error.rs. -/
inductive ObjectError where
  | NotFoundPath
  | NotFoundObject
  | LessObjectHash
  | CannotSpecifyHash
  | DontMatchType : List Char → List Char → ObjectError
  deriving DecidableEq, Repr

/-- Whether `l` starts with `needle`. -/
def startsWith {α : Type} [DecidableEq α] : List α → List α → Bool
  | [], _ => true
  | _ :: _, [] => false
  | a :: as, b :: bs => a = b && startsWith as bs

/-- Rust `str::contains`: substring occurrence. -/
def containsSub {α : Type} [DecidableEq α] (needle : List α) :
    List α → Bool
  | [] => startsWith needle []
  | b :: t => startsWith needle (b :: t) || containsSub needle t

/-- Byte-lexicographic comparison of two strings (the order of `OsStr`
comparison; the sorted paths below share their directory part, so path
order agrees with name order). -/
def lexLe : List Char → List Char → Bool
  | [], _ => true
  | _ :: _, [] => false
  | a :: as, b :: bs => if a = b then lexLe as bs else decide (a < b)

/-- Insertion into a sorted list. -/
def insertLe {α : Type} (le : α → α → Bool) (a : α) : List α → List α
  | [] => [a]
  | b :: t => if le a b then a :: b :: t else b :: insertLe le a t

/-- `Vec::sort` (model: insertion sort; both agree on a total order). -/
def sortLe {α : Type} (le : α → α → Bool) : List α → List α
  | [] => []
  | a :: t => insertLe le a (sortLe le t)

/-- `PathBuf::join`: an absolute right operand replaces the base. -/
def pathJoin (base p : List Char) : List Char :=
  if p.head? = some '/' then p else base ++ '/' :: p

/-- `NssRepository::try_get_objects_path`, the file system abstracted to
the name listing of the shard directory: `ext_paths` yields the full paths
sorted; a path is kept when it contains `hash[2..]` as a substring; more
than two matches fail with `CannotSpecifyHash`, none with
`NotFoundObject`, anything else resolves to the first match. -/
def tryGetObjectsPath (root : List Char) (listing : List (List Char))
    (hash : List Char) : Except ObjectError (List Char) :=
  if hash.length < 6 then Except.error ObjectError.LessObjectHash
  else
    let dir := hash.take 2
    let file := hash.drop 2
    let objectDir := root ++ "/.nss/objects/".toList ++ dir
    let paths := sortLe lexLe (listing.map (fun n => objectDir ++ '/' :: n))
    let targetFiles := paths.filter (fun p => containsSub file p)
    if targetFiles.length > 2 then Except.error ObjectError.CannotSpecifyHash
    else
      match targetFiles with
      | [] => Except.error ObjectError.NotFoundObject
      | p :: _ => Except.ok (pathJoin objectDir p)

/-! ## Concrete example inputs used by the theorems below -/

/-- The commit of the repository's own serialization test (scenario S3). -/
def exCommitS3 : Commit :=
  { tree_hash := "c192349d0ee530038e5d925fdd701652ca755ba8".toList
    parents := ["a02b83cb54ba139e5c9d623a2fcf5424552946e0".toList]
    author := "nopeNoshihsi".toList
    committer := "nopeNoshihsi".toList
    date := ⟨1687619045, 0⟩
    message := "initial".toList }

/-- The S3 commit with an empty parent list (a root commit). -/
def exCommitNoParents : Commit :=
  { exCommitS3 with parents := [] }

/-- The S3 commit with a two-word message. -/
def exCommitSpacedMsg : Commit :=
  { exCommitS3 with message := "hello world".toList }

/-- A staged record for the path `a/b.c`. -/
def exFileMeta1 : FileMeta :=
  ⟨1, 2, 3, 4, 5, 6, 33188, 1000, 1000, 6, List.replicate 20 17, 5,
    [97, 47, 98, 46, 99]⟩

/-- A staged record for the one-byte path `z`. -/
def exFileMeta2 : FileMeta :=
  ⟨1, 2, 3, 4, 5, 6, 33188, 1000, 1000, 1, List.replicate 20 34, 1, [122]⟩

/-- A two-record index. -/
def exIndex : Index :=
  ⟨1, [exFileMeta1, exFileMeta2]⟩

/-- Scenario S5, index A: `a.txt → H1`, `b.txt → H2` (single-byte names). -/
def exMetaA1 : FileMeta :=
  ⟨0, 0, 0, 0, 0, 0, 33188, 0, 0, 0, List.replicate 20 1, 1, [97]⟩

/-- S5: the record `b.txt → H2` of index A. -/
def exMetaA2 : FileMeta :=
  ⟨0, 0, 0, 0, 0, 0, 33188, 0, 0, 0, List.replicate 20 2, 1, [98]⟩

/-- S5: the record `b.txt → H3` of index B. -/
def exMetaB2 : FileMeta :=
  ⟨0, 0, 0, 0, 0, 0, 33188, 0, 0, 0, List.replicate 20 3, 1, [98]⟩

/-- S5: the record `c.txt → H4` of index B. -/
def exMetaB3 : FileMeta :=
  ⟨0, 0, 0, 0, 0, 0, 33188, 0, 0, 0, List.replicate 20 4, 1, [99]⟩

/-- S5 index A. -/
def exIndexA : Index :=
  ⟨1, [exMetaA1, exMetaA2]⟩

/-- S5 index B. -/
def exIndexB : Index :=
  ⟨1, [exMetaA1, exMetaB2, exMetaB3]⟩

/-- A blob entry named `a`. -/
def exEntryA : Entry :=
  ⟨33188, ['a'], List.replicate 20 0⟩

/-- A blob entry named `b` with a different hash. -/
def exEntryB : Entry :=
  ⟨33188, ['b'], List.replicate 20 1⟩

/-- One step along a directed edge of the arena: the relation BFS explores.
Its reflexive-transitive closure is reachability. -/
def edgeStep (edges : List (Nat × Nat)) (a b : Nat) : Prop :=
  (a, b) ∈ edges

instance (edges : List (Nat × Nat)) (a b : Nat) :
    Decidable (edgeStep edges a b) := by
  unfold edgeStep
  infer_instance

/-- S6: the history graph of HEAD, v7 → v4 → {v3, v2}, v2 → v1, exactly as
`CommitGraph::build` inserts it (children before parents). -/
def exG1 : Graph (List Char) :=
  ⟨["v7".toList, "v4".toList, "v3".toList, "v2".toList, "v1".toList],
    [(0, 1), (1, 2), (1, 3), (3, 4)]⟩

/-- S6: the history graph of the branch, v5 → v2 → v1. -/
def exG2 : Graph (List Char) :=
  ⟨["v5".toList, "v2".toList, "v1".toList], [(0, 1), (1, 2)]⟩

/-- Two vertices, no edges: the shared value 1 is not reachable from the
start vertex 0. -/
def exGUnreach : Graph Nat :=
  ⟨[0, 1], []⟩

/-- The one-vertex graph holding the value 1. -/
def exGOne : Graph Nat :=
  ⟨[1], []⟩

/-! ## C1: abbreviated-hash resolution and ambiguity -/

/-- C1: at a store whose `ab` shard holds the two objects `cdef01aaa` and
`cdef02bbb`, both matching the 7-character prefix `abcdef0`, resolution
succeeds with the first sorted match instead of failing with the ambiguity
error: `try_get_objects_path` only rejects more than two matches
(`target_files.len() > 2`), so exactly two ambiguous matches resolve. -/
theorem tryGetObjectsPath_two_matches_ok :
    tryGetObjectsPath ("/r".toList)
        ["cdef01aaa".toList, "cdef02bbb".toList] ("abcdef0".toList) =
      Except.ok ("/r/.nss/objects/ab/cdef01aaa".toList) ∧
    containsSub ("abcdef0".toList.drop 2) ("cdef01aaa".toList) = true ∧
    containsSub ("abcdef0".toList.drop 2) ("cdef02bbb".toList) = true := by
  refine ⟨rfl, by decide, by decide⟩

/-! ## C3: the framing of a parentless commit -/

/-- C3 counterexample: the framing of a commit with an empty parent list
does not contain the literal text `parent None` anywhere (the parents
segment of `as_bytes` is simply empty). -/
theorem as_bytes_no_parent_none :
    containsSub ("parent None".toList) (Commit.as_bytes exCommitNoParents)
      = false := by
  decide

/-- C3 amended: for every commit with an empty parent list, the body
emitted by `as_bytes` consists of the tree, author, committer and date
lines, a blank line and the message, with no parent line in between. -/
theorem contentText_empty_parents (c : Commit) (h : c.parents = []) :
    Commit.contentText c =
      ("tree ".toList ++ c.tree_hash) ++ '\n' ::
        ((("author ".toList ++ c.author) ++ '\n' ::
          (("committer ".toList ++ c.committer) ++ '\n' ::
            (("date ".toList ++ intToStr c.date.sec) ++ '\n' :: '\n' ::
              (c.message ++ ['\n']))))) := by
  simp [Commit.contentText, Commit.parentsText, h]

/-- C3 witness: the amended statement at the concrete parentless commit. -/
theorem contentText_empty_parents_witness :
    Commit.contentText exCommitNoParents =
      ("tree ".toList ++ exCommitNoParents.tree_hash) ++ '\n' ::
        ((("author ".toList ++ exCommitNoParents.author) ++ '\n' ::
          (("committer ".toList ++ exCommitNoParents.committer) ++ '\n' ::
            (("date ".toList ++ intToStr exCommitNoParents.date.sec) ++
              '\n' :: '\n' ::
              (exCommitNoParents.message ++ ['\n']))))) :=
  contentText_empty_parents exCommitNoParents rfl

/-! ## C4: tree hashing and entry order -/

/-- C4 counterexample: two trees built by `Tree::from_entries` from the
same entry multiset in different orders produce different canonical
framings (`as_bytes` serializes entries in stored order and never sorts),
so they do not hash identically. -/
theorem tree_from_entries_order_sensitive :
    (Tree.from_entries [exEntryA, exEntryB]).entries.Perm
        (Tree.from_entries [exEntryB, exEntryA]).entries ∧
      Tree.as_bytes (Tree.from_entries [exEntryA, exEntryB]) ≠
        Tree.as_bytes (Tree.from_entries [exEntryB, exEntryA]) := by
  constructor
  · decide
  · decide

/-- C4 amended: entry order is canonicalized only at construction
(`Tree::new`) and decode (`Tree::from_rawobject`), both of which sort by
name; two trees whose entry lists are permutations of each other and are
both strictly name-sorted (as every tree those constructors produce is)
serialize to the same canonical framing, hence the same SHA-1 hash. -/
theorem tree_as_bytes_sorted_perm_eq (l1 l2 : List Entry)
    (hp : l1.Perm l2)
    (h1 : List.Pairwise (fun a b => a.name < b.name) l1)
    (h2 : List.Pairwise (fun a b => a.name < b.name) l2) :
    Tree.as_bytes (Tree.from_entries l1) =
      Tree.as_bytes (Tree.from_entries l2) := by
  haveI : IsAntisymm Entry (fun a b => a.name < b.name) :=
    ⟨fun a b hab hba => absurd hab (lt_asymm hba)⟩
  rw [List.eq_of_perm_of_sorted hp h1 h2]

/-- C4 witness: the amended statement at a concrete sorted entry list. -/
theorem tree_as_bytes_sorted_perm_eq_witness :
    Tree.as_bytes (Tree.from_entries [exEntryA, exEntryB]) =
      Tree.as_bytes (Tree.from_entries [exEntryA, exEntryB]) :=
  tree_as_bytes_sorted_perm_eq [exEntryA, exEntryB] [exEntryA, exEntryB]
    (List.Perm.refl _) (by decide) (by decide)

/-! ## C6: decoding the zero-byte index -/

/-- C6 counterexample: decoding a zero-byte index does not return the
claimed version-1 empty index. -/
theorem from_rawindex_empty_not_version_one :
    Index.from_rawindex [] ≠ some ⟨1, []⟩ := by
  decide

/-- C6 amended: decoding a zero-byte index returns `Index::default()`,
whose derived `u32` version is `0` (not `Index::empty()`, whose version is
`1`), with an empty record list. -/
theorem from_rawindex_empty_eq_default :
    Index.from_rawindex [] = some ⟨0, []⟩ ∧ Index.default.version = 0 ∧
      Index.empty.version = 1 := by
  refine ⟨?_, rfl, rfl⟩
  decide

/-! ## C7: decoding a non-empty buffer with an invalid header -/

/-- C7 counterexample: a 12-byte buffer whose first four bytes are not the
`DIRC` magic decodes successfully to an empty index instead of failing
with a malformed-index error. -/
theorem from_rawindex_bad_magic_ok :
    List.take 4 [88, 88, 88, 88, 88, 88, 88, 88, 0, 0, 0, 0] ≠
        strBytes ("DIRC".toList) ∧
      Index.from_rawindex [88, 88, 88, 88, 88, 88, 88, 88, 0, 0, 0, 0] =
        some ⟨1, []⟩ := by
  constructor
  · decide
  · decide

/-- C7 amended: `from_rawindex` never examines the magic or version bytes:
every 12-byte buffer whose last four bytes (the entry count) are zero
decodes to an empty index whatever its first eight bytes are, and every
non-empty buffer shorter than 12 bytes panics on the entry-count slice
instead of returning a malformed-index error (no such error exists in the
code). -/
theorem from_rawindex_ignores_header (b8 : List Nat) (h8 : b8.length = 8)
    (b : List Nat) (hne : b ≠ []) (hlt : b.length < 12) :
    Index.from_rawindex (b8 ++ [0, 0, 0, 0]) = some ⟨1, []⟩ ∧
      Index.from_rawindex b = none := by
  constructor
  · have hbuf : b8 ++ [0, 0, 0, 0] ≠ [] := by
      intro h
      have := congrArg List.length h
      simp [h8] at this
    rw [Index.from_rawindex, if_neg hbuf]
    have hdrop : (b8 ++ [0, 0, 0, 0]).drop 8 = [0, 0, 0, 0] := by
      rw [← h8, List.drop_left]
    have hlen : (b8 ++ [0, 0, 0, 0]).length = 12 := by
      simp [h8]
    have hslice : sliceL (b8 ++ [0, 0, 0, 0]) 8 12 = some [0, 0, 0, 0] := by
      rw [sliceL, if_pos (by omega)]
      rw [hdrop]
      rfl
    have hread : readBE32 (b8 ++ [0, 0, 0, 0]) 8 = some 0 := by
      rw [readBE32, show (8 + 4 : Nat) = 12 from rfl, hslice]
      rfl
    rw [hread]
    rfl
  · rw [Index.from_rawindex, if_neg hne]
    have hread : readBE32 b 8 = none := by
      rw [readBE32, sliceL, if_neg (by omega)]
      rfl
    rw [hread]
    rfl

/-- C7 witness: the amended statement at a concrete garbage header and a
concrete short buffer. -/
theorem from_rawindex_ignores_header_witness :
    Index.from_rawindex ([9, 9, 9, 9, 9, 9, 9, 9] ++ [0, 0, 0, 0]) =
        some ⟨1, []⟩ ∧
      Index.from_rawindex [1, 2, 3] = none :=
  from_rawindex_ignores_header [9, 9, 9, 9, 9, 9, 9, 9] (by decide)
    [1, 2, 3] (by decide) (by decide)

/-! ## C5: the index codec round-trip -/

theorem sliceL_all (l : List Nat) : sliceL l 0 l.length = some l := by
  rw [sliceL, if_pos (by omega)]
  simp

theorem sliceL_first (xs rest : List Nat) :
    sliceL (xs ++ rest) 0 xs.length = some xs := by
  rw [sliceL, if_pos (by simp)]
  simp [List.take_left]

theorem sliceL_shift (xs rest : List Nat) (a b : Nat) :
    sliceL (xs ++ rest) (xs.length + a) (xs.length + b) = sliceL rest a b := by
  by_cases h : a ≤ b ∧ b ≤ rest.length
  · rw [sliceL, if_pos (by simp; omega), sliceL, if_pos h,
      List.drop_append a, Nat.add_sub_add_left]
  · rw [sliceL, if_neg (by simp; omega), sliceL, if_neg h]

theorem beVal_toBE32 (n : Nat) (h : n < 2 ^ 32) :
    beVal (toBE32 n) = n := by
  simp [beVal, toBE32]
  omega

theorem beVal_toBE16 (n : Nat) (h : n < 2 ^ 16) :
    beVal (toBE16 n) = n := by
  simp [beVal, toBE16]
  omega

theorem readBE32_skipBlock (xs rest : List Nat) (k : Nat) :
    readBE32 (xs ++ rest) (xs.length + k) = readBE32 rest k := by
  rw [readBE32, readBE32,
    show xs.length + k + 4 = xs.length + (k + 4) from by omega, sliceL_shift]

theorem readBE16_skipBlock (xs rest : List Nat) (k : Nat) :
    readBE16 (xs ++ rest) (xs.length + k) = readBE16 rest k := by
  rw [readBE16, readBE16,
    show xs.length + k + 2 = xs.length + (k + 2) from by omega, sliceL_shift]

theorem readBE32_first (n : Nat) (rest : List Nat) (h : n < 2 ^ 32) :
    readBE32 (toBE32 n ++ rest) 0 = some n := by
  have h4 : sliceL (toBE32 n ++ rest) 0 4 = some (toBE32 n) := by
    have := sliceL_first (toBE32 n) rest
    simpa [toBE32] using this
  rw [readBE32, show (0 + 4 : Nat) = 4 from rfl, h4]
  simp [beVal_toBE32 n h]

theorem readBE16_first (n : Nat) (rest : List Nat) (h : n < 2 ^ 16) :
    readBE16 (toBE16 n ++ rest) 0 = some n := by
  have h2 : sliceL (toBE16 n ++ rest) 0 2 = some (toBE16 n) := by
    have := sliceL_first (toBE16 n) rest
    simpa [toBE16] using this
  rw [readBE16, show (0 + 2 : Nat) = 2 from rfl, h2]
  simp [beVal_toBE16 n h]

theorem sliceL_shift4 (m : Nat) (rest : List Nat) (a b : Nat) :
    sliceL (toBE32 m ++ rest) (a + 4) (b + 4) = sliceL rest a b := by
  have := sliceL_shift (toBE32 m) rest a b
  simpa [toBE32, Nat.add_comm] using this

theorem readBE32_shift (m : Nat) (rest : List Nat) (k : Nat) :
    readBE32 (toBE32 m ++ rest) (k + 4) = readBE32 rest k := by
  rw [readBE32, readBE32, show k + 4 + 4 = (k + 4) + 4 from rfl,
    sliceL_shift4]

theorem readBE16_shift4 (m : Nat) (rest : List Nat) (k : Nat) :
    readBE16 (toBE32 m ++ rest) (k + 4) = readBE16 rest k := by
  rw [readBE16, readBE16, show k + 4 + 2 = (k + 2) + 4 from rfl,
    sliceL_shift4]

theorem sliceL_shift20 (xs : List Nat) (h : xs.length = 20)
    (rest : List Nat) (a b : Nat) :
    sliceL (xs ++ rest) (a + 20) (b + 20) = sliceL rest a b := by
  have := sliceL_shift xs rest a b
  rw [h, Nat.add_comm 20 a, Nat.add_comm 20 b] at this
  exact this

theorem readBE16_shift20 (xs : List Nat) (h : xs.length = 20)
    (rest : List Nat) (k : Nat) :
    readBE16 (xs ++ rest) (k + 20) = readBE16 rest k := by
  rw [readBE16, readBE16, show k + 20 + 2 = (k + 2) + 20 from rfl,
    sliceL_shift20 xs h]

/-- Decoding one serialized record recovers the record. -/
theorem fm_from_rawindex_as_bytes (f : FileMeta) (hwf : FileMeta.WF f) :
    FileMeta.from_rawindex (FileMeta.as_bytes f) = some f := by
  obtain ⟨h1, h2, h3, h4, h5, h6, h7, h8, h9, h10, h11, h12, h13, h14⟩ := hwf
  have hb : FileMeta.as_bytes f =
      toBE32 f.ctime ++ (toBE32 f.ctime_nsec ++ (toBE32 f.mtime ++
        (toBE32 f.mtime_nsec ++ (toBE32 f.dev ++ (toBE32 f.ino ++
        (toBE32 f.mode ++ (toBE32 f.uid ++ (toBE32 f.gid ++
        (toBE32 f.filesize ++ (f.hash ++ (toBE16 f.filename_size ++
        f.filename))))))))))) := by
    simp [FileMeta.as_bytes]
  have hfn : sliceL (FileMeta.as_bytes f) 62 (62 + f.filename_size) =
      some f.filename := by
    have hpre : (toBE32 f.ctime ++ (toBE32 f.ctime_nsec ++ (toBE32 f.mtime ++
        (toBE32 f.mtime_nsec ++ (toBE32 f.dev ++ (toBE32 f.ino ++
        (toBE32 f.mode ++ (toBE32 f.uid ++ (toBE32 f.gid ++
        (toBE32 f.filesize ++ (f.hash ++
        toBE16 f.filename_size))))))))))).length = 62 := by
      simp [toBE32, toBE16, h11]
    have hb2 : FileMeta.as_bytes f =
        (toBE32 f.ctime ++ (toBE32 f.ctime_nsec ++ (toBE32 f.mtime ++
          (toBE32 f.mtime_nsec ++ (toBE32 f.dev ++ (toBE32 f.ino ++
          (toBE32 f.mode ++ (toBE32 f.uid ++ (toBE32 f.gid ++
          (toBE32 f.filesize ++ (f.hash ++
          toBE16 f.filename_size))))))))))) ++ f.filename := by
      simp [FileMeta.as_bytes]
    rw [hb2, sliceL, if_pos]
    · rw [List.drop_left' hpre]
      have : 62 + f.filename_size - 62 = f.filename_size := by omega
      rw [this, ← h13, List.take_length]
    · constructor
      · omega
      · rw [List.length_append, hpre]
        omega
  rw [FileMeta.from_rawindex]
  rw [hb]
  simp only [readBE32_shift, readBE16_shift4, readBE16_shift20 _ h11,
    readBE32_first _ _ h1, readBE32_first _ _ h2, readBE32_first _ _ h3,
    readBE32_first _ _ h4, readBE32_first _ _ h5, readBE32_first _ _ h6,
    readBE32_first _ _ h7, readBE32_first _ _ h8, readBE32_first _ _ h9,
    readBE32_first _ _ h10, readBE16_first _ _ h12, Bind.bind,
    Option.some_bind]
  have hash40 : sliceL (toBE32 f.ctime ++ (toBE32 f.ctime_nsec ++
      (toBE32 f.mtime ++ (toBE32 f.mtime_nsec ++ (toBE32 f.dev ++
      (toBE32 f.ino ++ (toBE32 f.mode ++ (toBE32 f.uid ++ (toBE32 f.gid ++
      (toBE32 f.filesize ++ (f.hash ++ (toBE16 f.filename_size ++
      f.filename)))))))))))) 40 60 = some f.hash := by
    simp only [show (40 : Nat) = 0 + 4 + 4 + 4 + 4 + 4 + 4 + 4 + 4 + 4 + 4
        from rfl,
      show (60 : Nat) = 20 + 4 + 4 + 4 + 4 + 4 + 4 + 4 + 4 + 4 + 4 from rfl,
      sliceL_shift4]
    have : sliceL (f.hash ++ (toBE16 f.filename_size ++ f.filename)) 0
        f.hash.length = some f.hash := sliceL_first _ _
    rw [h11] at this
    exact this
  simp only [hash40, Bind.bind, Option.some_bind]
  rw [← hb]
  simp only [hfn, Bind.bind, Option.some_bind]
  rfl

/-- The length of one serialized record. -/
theorem as_bytes_fm_length (f : FileMeta) (hwf : FileMeta.WF f) :
    (FileMeta.as_bytes f).length = 62 + f.filename_size := by
  obtain ⟨-, -, -, -, -, -, -, -, -, -, h11, -, h13, -⟩ := hwf
  simp [FileMeta.as_bytes, toBE32, toBE16, h11, h13]
  omega

/-- The wrapped `padding` helper agrees with the pad the encoder uses. -/
theorem padding_eq_encoder (n : Nat) (h : n < 2 ^ 16) :
    padding n = 8 - (62 + n) % 8 := by
  rcases n with - | m
  · decide
  rcases m with - | k
  · decide
  rw [padding]
  have hu : (2 : Nat) ^ 64 = 18446744073709551616 := by norm_num
  have hnm : (k + 2) % 2 ^ 64 = k + 2 := by
    apply Nat.mod_eq_of_lt
    omega
  simp only [hnm]
  have hsub : (k + 2 + 2 ^ 64 - 2) % 2 ^ 64 = k := by
    have : k + 2 + 2 ^ 64 - 2 = k + 2 ^ 64 := by omega
    rw [this, Nat.add_mod_right]
    apply Nat.mod_eq_of_lt
    omega
  rw [hsub]
  have hq := Nat.div_add_mod k 8
  have hr : k % 8 < 8 := Nat.mod_lt _ (by omega)
  have htar : (k / 8 + 1) * 8 + 2 < 2 ^ 64 := by
    have : k / 8 ≤ k := Nat.div_le_self k 8
    omega
  rw [Nat.mod_eq_of_lt htar, Nat.mod_eq_of_lt (by omega : (k / 8 + 1) * 8 + 2 < 2 ^ 64)]
  have hge : k + 2 ≤ (k / 8 + 1) * 8 + 2 := by omega
  have : (k / 8 + 1) * 8 + 2 + 2 ^ 64 - (k + 2) =
      ((k / 8 + 1) * 8 + 2 - (k + 2)) + 2 ^ 64 := by omega
  rw [this, Nat.add_mod_right, Nat.mod_eq_of_lt (by omega)]
  have h62 : (62 + (k + 2)) % 8 = k % 8 := by omega
  omega

/-- Decoding the encoded records, at any offset: the loop recovers the
records in order. -/
theorem fromRawAux_encode (fms : List FileMeta)
    (hwf : ∀ f ∈ fms, FileMeta.WF f) :
    ∀ (pre : List Nat) (acc : List FileMeta),
      Index.fromRawAux (pre ++ (fms.map encodeRec).flatten) fms.length
        pre.length acc = some ⟨1, acc ++ fms⟩ := by
  induction fms with
  | nil =>
    intro pre acc
    simp [Index.fromRawAux]
  | cons f fms ih =>
    intro pre acc
    have hwfF : FileMeta.WF f := hwf f (by simp)
    obtain ⟨-, -, -, -, -, -, -, -, -, -, h11, h12, h13, -⟩ := id hwfF
    have hrec : (List.map encodeRec (f :: fms)).flatten =
        encodeRec f ++ (fms.map encodeRec).flatten := by
      simp
    rw [List.length_cons, Index.fromRawAux, hrec]
    have hlenf := as_bytes_fm_length f hwfF
    -- the filename_size read at offset start + 60
    have e1 : readBE16 (pre ++ (encodeRec f ++ (fms.map encodeRec).flatten))
        (pre.length + 60) = some f.filename_size := by
      rw [readBE16_skipBlock]
      have hsplit : encodeRec f ++ (fms.map encodeRec).flatten =
          (toBE32 f.ctime ++ (toBE32 f.ctime_nsec ++ (toBE32 f.mtime ++
            (toBE32 f.mtime_nsec ++ (toBE32 f.dev ++ (toBE32 f.ino ++
            (toBE32 f.mode ++ (toBE32 f.uid ++ (toBE32 f.gid ++
            (toBE32 f.filesize ++ f.hash)))))))))) ++
          (toBE16 f.filename_size ++ (f.filename ++
            (List.replicate (8 - (62 + f.filename_size) % 8) 0 ++
              (fms.map encodeRec).flatten))) := by
        simp [encodeRec, FileMeta.as_bytes]
      have hpre60 : (toBE32 f.ctime ++ (toBE32 f.ctime_nsec ++
          (toBE32 f.mtime ++ (toBE32 f.mtime_nsec ++ (toBE32 f.dev ++
          (toBE32 f.ino ++ (toBE32 f.mode ++ (toBE32 f.uid ++
          (toBE32 f.gid ++ (toBE32 f.filesize ++
          f.hash)))))))))).length = 60 := by
        simp [toBE32, h11]
      rw [hsplit, show (60 : Nat) = (toBE32 f.ctime ++ (toBE32 f.ctime_nsec
          ++ (toBE32 f.mtime ++ (toBE32 f.mtime_nsec ++ (toBE32 f.dev ++
          (toBE32 f.ino ++ (toBE32 f.mode ++ (toBE32 f.uid ++
          (toBE32 f.gid ++ (toBE32 f.filesize ++
          f.hash)))))))))).length + 0 from by rw [hpre60]]
      rw [readBE16_skipBlock]
      exact readBE16_first _ _ h12
    simp only [e1, Bind.bind, Option.some_bind]
    -- the record slice
    have e2 : sliceL (pre ++ (encodeRec f ++ (fms.map encodeRec).flatten))
        (pre.length) (pre.length + (62 + f.filename_size)) =
        some (FileMeta.as_bytes f) := by
      have hs := sliceL_shift pre (encodeRec f ++ (fms.map encodeRec).flatten)
        0 (62 + f.filename_size)
      rw [Nat.add_zero] at hs
      rw [hs]
      have : encodeRec f ++ (fms.map encodeRec).flatten =
          FileMeta.as_bytes f ++
            (List.replicate (8 - (62 + f.filename_size) % 8) 0 ++
              (fms.map encodeRec).flatten) := by
        simp [encodeRec]
      rw [this, ← hlenf, sliceL_first]
    rw [show pre.length + 62 + f.filename_size =
        pre.length + (62 + f.filename_size) from by omega]
    simp only [e2, Bind.bind, Option.some_bind]
    simp only [fm_from_rawindex_as_bytes f hwfF, Bind.bind,
      Option.some_bind]
    -- step to the next record
    have hnext : pre.length + (62 + f.filename_size) +
        padding f.filename_size =
        (pre ++ encodeRec f).length := by
      rw [padding_eq_encoder _ h12, List.length_append, encodeRec,
        List.length_append, hlenf, List.length_replicate]
      omega
    have hassoc : pre ++ (encodeRec f ++ (fms.map encodeRec).flatten) =
        (pre ++ encodeRec f) ++ (fms.map encodeRec).flatten := by
      simp
    rw [hnext, hassoc, ih (fun g hg => hwf g (by simp [hg]))]
    simp

/-- C5: for every well-formed index (record counts and fields within their
machine types, 20-byte hashes, `filename_size` the byte length of the
non-empty filename), decoding the encoded bytes recovers exactly the
record list (hence the same multiset), and every record's pad makes the
padded record length a multiple of 8 strictly greater than `62 + N`, with
the pad between 1 and 8. -/
theorem index_round_trip (i : Index)
    (hwf : ∀ f ∈ i.filemetas, FileMeta.WF f)
    (hn : i.filemetas.length < 2 ^ 32) :
    Index.from_rawindex (Index.as_bytes i) = some ⟨1, i.filemetas⟩ ∧
      ∀ f ∈ i.filemetas,
        (62 + f.filename_size + (8 - (62 + f.filename_size) % 8)) % 8 = 0 ∧
        62 + f.filename_size <
          62 + f.filename_size + (8 - (62 + f.filename_size) % 8) ∧
        1 ≤ 8 - (62 + f.filename_size) % 8 ∧
        8 - (62 + f.filename_size) % 8 ≤ 8 := by
  constructor
  · have hb : Index.as_bytes i =
        (strBytes ("DIRC".toList) ++ toBE32 i.version ++
          toBE32 i.filemetas.length) ++
          (i.filemetas.map encodeRec).flatten := by
      simp only [Index.as_bytes, List.append_assoc]
      rfl
    have hne : Index.as_bytes i ≠ [] := by
      rw [hb]
      intro h
      have := congrArg List.length h
      simp [strBytes, utf8Bytes, toBE32] at this
    rw [Index.from_rawindex, if_neg hne, hb]
    have hcount : readBE32 ((strBytes ("DIRC".toList) ++ toBE32 i.version ++
        toBE32 i.filemetas.length) ++ (i.filemetas.map encodeRec).flatten)
        8 = some i.filemetas.length := by
      have : strBytes ("DIRC".toList) ++ toBE32 i.version ++
          toBE32 i.filemetas.length ++ (i.filemetas.map encodeRec).flatten =
          strBytes ("DIRC".toList) ++ (toBE32 i.version ++
            (toBE32 i.filemetas.length ++
              (i.filemetas.map encodeRec).flatten)) := by
        simp
      rw [this]
      have h4 : (strBytes ("DIRC".toList)).length = 4 := by decide
      rw [show (8 : Nat) = (strBytes ("DIRC".toList)).length + 4 from by
        rw [h4]]
      rw [readBE32_skipBlock, show (4 : Nat) = 0 + 4 from rfl,
        readBE32_shift, readBE32_first _ _ hn]
    simp only [hcount, Bind.bind, Option.some_bind]
    have h12 : (strBytes ("DIRC".toList) ++ toBE32 i.version ++
        toBE32 i.filemetas.length).length = 12 := by
      simp [toBE32]
      decide
    rw [show (12 : Nat) = (strBytes ("DIRC".toList) ++ toBE32 i.version ++
        toBE32 i.filemetas.length).length from h12.symm]
    rw [fromRawAux_encode i.filemetas hwf]
    simp
  · intro f hf
    have h8 : (62 + f.filename_size) % 8 < 8 := Nat.mod_lt _ (by omega)
    refine ⟨by omega, by omega, by omega, by omega⟩

/-- C5 witness: the round trip at a concrete two-record index. -/
theorem index_round_trip_witness :
    Index.from_rawindex (Index.as_bytes exIndex) =
        some ⟨1, exIndex.filemetas⟩ ∧
      ∀ f ∈ exIndex.filemetas,
        (62 + f.filename_size + (8 - (62 + f.filename_size) % 8)) % 8 = 0 ∧
        62 + f.filename_size <
          62 + f.filename_size + (8 - (62 + f.filename_size) % 8) ∧
        1 ≤ 8 - (62 + f.filename_size) % 8 ∧
        8 - (62 + f.filename_size) % 8 ≤ 8 :=
  index_round_trip exIndex (by decide) (by decide)

/-! ## C8: the index diff -/

theorem upsert_not_mem {K V : Type} [DecidableEq K] (m : List (K × V))
    (k : K) (v : V) (h : k ∉ m.map Prod.fst) :
    upsert m k v = m ++ [(k, v)] := by
  induction m with
  | nil => rfl
  | cons p rest ih =>
    simp only [List.map_cons, List.mem_cons] at h
    push_neg at h
    rw [upsert, if_neg (by exact fun hpk => h.1 hpk.symm)]
    rw [ih h.2]
    simp

theorem mapOfPairs_go {K V : Type} [DecidableEq K] :
    ∀ (ps acc : List (K × V)), (ps.map Prod.fst).Nodup →
      (∀ x ∈ ps.map Prod.fst, x ∉ acc.map Prod.fst) →
      ps.foldl (fun m kv => upsert m kv.1 kv.2) acc = acc ++ ps := by
  intro ps
  induction ps with
  | nil => intro acc _ _; simp
  | cons p rest ih =>
    intro acc hnd hdis
    simp only [List.map_cons, List.nodup_cons] at hnd
    have hp : p.1 ∉ acc.map Prod.fst := hdis p.1 (by simp)
    rw [List.foldl_cons, upsert_not_mem acc p.1 p.2 hp]
    have := ih (acc ++ [(p.1, p.2)]) hnd.2 (by
      intro x hx
      simp only [List.map_append, List.mem_append]
      push_neg
      constructor
      · exact hdis x (by simp [hx])
      · simp only [List.map_cons, List.map_nil, List.mem_singleton]
        intro hxp
        rw [hxp] at hx
        exact hnd.1 hx)
    rw [this]
    simp

theorem mapOfPairs_nodup {K V : Type} [DecidableEq K]
    (ps : List (K × V)) (h : (ps.map Prod.fst).Nodup) :
    mapOfPairs ps = ps := by
  have := mapOfPairs_go ps [] h (by simp)
  simpa [mapOfPairs] using this

theorem lookupKV_eq_none {K V : Type} [DecidableEq K]
    (m : List (K × V)) (k : K) :
    lookupKV m k = none ↔ k ∉ m.map Prod.fst := by
  induction m with
  | nil => simp [lookupKV]
  | cons p rest ih =>
    rw [lookupKV]
    by_cases h : p.1 = k
    · simp [h]
    · rw [if_neg h, ih]
      simp only [List.map_cons, List.mem_cons, not_or]
      constructor
      · intro hk
        exact ⟨fun he => h he.symm, hk⟩
      · intro hk
        exact hk.2

theorem lookupKV_some_mem {K V : Type} [DecidableEq K]
    (m : List (K × V)) (k : K) (v : V) :
    lookupKV m k = some v → (k, v) ∈ m := by
  induction m with
  | nil => simp [lookupKV]
  | cons p rest ih =>
    by_cases h : p.1 = k
    · rw [lookupKV, if_pos h]
      intro hv
      have hp : p = (k, v) := by
        obtain ⟨p1, p2⟩ := p
        simp_all
      rw [hp]
      exact List.mem_cons_self _ _
    · rw [lookupKV, if_neg h]
      intro hv
      exact List.mem_cons_of_mem _ (ih hv)

theorem filter_key_none {K V : Type} [DecidableEq K]
    (m : List (K × V)) (k : K) (h : lookupKV m k = none) :
    m.filter (fun kv => kv.1 = k) = [] := by
  induction m with
  | nil => rfl
  | cons p rest ih =>
    rw [lookupKV] at h
    by_cases hpk : p.1 = k
    · rw [if_pos hpk] at h
      exact absurd h (by simp)
    · rw [if_neg hpk] at h
      rw [List.filter_cons_of_neg (by simpa using hpk), ih h]

theorem filter_key_some {K V : Type} [DecidableEq K]
    (m : List (K × V)) (k : K) (v : V) (hnd : (m.map Prod.fst).Nodup)
    (h : lookupKV m k = some v) :
    m.filter (fun kv => kv.1 = k) = [(k, v)] := by
  induction m with
  | nil => simp [lookupKV] at h
  | cons p rest ih =>
    simp only [List.map_cons, List.nodup_cons] at hnd
    rw [lookupKV] at h
    by_cases hpk : p.1 = k
    · rw [if_pos hpk] at h
      have hv : p = (k, v) := by
        obtain ⟨p1, p2⟩ := p
        simp_all
      rw [List.filter_cons_of_pos (by simpa using hpk), hv]
      have hrest : rest.filter (fun kv => kv.1 = k) = [] := by
        apply filter_key_none
        rw [lookupKV_eq_none]
        rw [← hpk]
        exact hnd.1
      rw [hrest]
    · rw [if_neg hpk] at h
      rw [List.filter_cons_of_neg (by simpa using hpk), ih hnd.2 h]

/-- The second component emitted for an old key is that key, whatever the
tag. -/
theorem diff_tagfn_snd (newm : List (List Nat × List Nat))
    (kv : List Nat × List Nat) :
    (diffTagLine newm kv).2 = kv.1 := by
  rw [diffTagLine]
  rcases h : lookupKV newm kv.1 with - | v2
  · rfl
  · by_cases hv : v2 = kv.2 <;> simp [hv]

/-- The Insert half of the diff, filtered to one name. -/
theorem insert_part_filter {V : Type} [DecidableEq V]
    (nA : List (List Nat × V)) (name : List Nat) :
    ∀ nB : List (List Nat × V), (nB.map Prod.fst).Nodup →
      ((nB.filterMap (fun kv =>
        if (lookupKV nA kv.1).isNone then some (DIffTag.Insert, kv.1)
        else none)).filter (fun p => p.2 = name)) =
      (if name ∈ nB.map Prod.fst ∧ lookupKV nA name = none then
        [(DIffTag.Insert, name)] else []) := by
  intro nB
  induction nB with
  | nil => simp
  | cons p rest ih =>
    intro hnd
    simp only [List.map_cons, List.nodup_cons] at hnd
    rw [List.filterMap_cons]
    by_cases hin : (lookupKV nA p.1).isNone
    · rw [if_pos hin]
      by_cases hpn : p.1 = name
      · have hfa : lookupKV nA name = none := by
          rw [← hpn]
          exact Option.isNone_iff_eq_none.mp hin
        rw [List.filter_cons_of_pos (by simpa using hpn), ih hnd.2]
        have hnm : ¬(name ∈ rest.map Prod.fst ∧ lookupKV nA name = none) := by
          intro hc
          rw [← hpn] at hc
          exact hnd.1 hc.1
        rw [if_neg hnm, if_pos ⟨by simp [hpn], hfa⟩, hpn]
      · rw [List.filter_cons_of_neg (by simpa using hpn), ih hnd.2]
        have : (name ∈ p.1 :: rest.map Prod.fst ∧
            lookupKV nA name = none) ↔
            (name ∈ rest.map Prod.fst ∧ lookupKV nA name = none) := by
          simp only [List.mem_cons]
          constructor
          · rintro ⟨hm | hm, hl⟩
            · exact absurd hm.symm hpn
            · exact ⟨hm, hl⟩
          · rintro ⟨hm, hl⟩
            exact ⟨Or.inr hm, hl⟩
        simp only [List.map_cons]
        rw [if_congr this rfl rfl]
    · rw [if_neg hin]
      rw [ih hnd.2]
      by_cases hpn : p.1 = name
      · have hlk : ¬lookupKV nA name = none := by
          rw [← hpn]
          simpa [Option.isNone_iff_eq_none] using hin
        rw [if_neg (fun hc => hlk hc.2), if_neg (fun hc => hlk hc.2)]
      · have : (name ∈ (p :: rest).map Prod.fst ∧
            lookupKV nA name = none) ↔
            (name ∈ rest.map Prod.fst ∧ lookupKV nA name = none) := by
          simp only [List.map_cons, List.mem_cons]
          constructor
          · rintro ⟨hm | hm, hl⟩
            · exact absurd hm.symm hpn
            · exact ⟨hm, hl⟩
          · rintro ⟨hm, hl⟩
            exact ⟨Or.inr hm, hl⟩
        rw [if_congr this rfl rfl]

/-- The old-keys half of the diff filtered to a name absent from the old
map: nothing survives. -/
theorem old_part_none (nB : List (List Nat × List Nat)) (name : List Nat) :
    ∀ nA : List (List Nat × List Nat), name ∉ nA.map Prod.fst →
      ((nA.map (diffTagLine nB)).filter (fun p => p.2 = name)) = [] := by
  intro nA
  induction nA with
  | nil => simp
  | cons p rest ih =>
    intro hnm
    simp only [List.map_cons, List.mem_cons, not_or] at hnm
    rw [List.map_cons, List.filter_cons_of_neg, ih hnm.2]
    simp only [diff_tagfn_snd nB p, decide_eq_true_eq]
    exact fun he => hnm.1 he.symm

/-- The old-keys half of the diff filtered to one name: exactly the tag of
that name when present, nothing otherwise. -/
theorem old_part_filter (nB : List (List Nat × List Nat))
    (name : List Nat) :
    ∀ nA : List (List Nat × List Nat), (nA.map Prod.fst).Nodup →
      ((nA.map (diffTagLine nB)).filter (fun p => p.2 = name)) =
      (match lookupKV nA name with
       | none => []
       | some va => [diffTagLine nB (name, va)]) := by
  intro nA
  induction nA with
  | nil => simp [lookupKV]
  | cons p rest ih =>
    intro hnd
    simp only [List.map_cons, List.nodup_cons] at hnd
    by_cases hpn : p.1 = name
    · rw [List.map_cons, List.filter_cons_of_pos
        (by
          have hsnd := diff_tagfn_snd nB p
          simp only [decide_eq_true_eq, hsnd]
          exact hpn), lookupKV, if_pos hpn]
      have hrest : ((rest.map (diffTagLine nB)).filter
          (fun p => p.2 = name)) = [] := by
        apply old_part_none
        rw [← hpn]
        exact hnd.1
      rw [hrest]
      have hp : p = (name, p.2) := by
        obtain ⟨p1, p2⟩ := p
        simp_all
      show [diffTagLine nB p] = [diffTagLine nB (name, p.2)]
      rw [← hp]
    · rw [List.map_cons, List.filter_cons_of_neg
        (by
          have hsnd := diff_tagfn_snd nB p
          simp only [decide_eq_true_eq, hsnd]
          exact hpn),
        lookupKV, if_neg hpn]
      exact ih hnd.2

/-- C8: a full characterization of `diff(A, B)` (realized by the call
`B.diff(A)`: `self` supplies the new metas and `vs` the old ones, which is
how scenario S5 reads).  For indices with duplicate-free filename lists,
every filename of A∪B appears exactly once, tagged Delete when only in A,
Insert when only in B, Equal when in both with equal hash and Replace when
in both with differing hash. -/
theorem index_diff_characterization (A B : Index)
    (hA : (A.filemetas.map FileMeta.filename).Nodup)
    (hB : (B.filemetas.map FileMeta.filename).Nodup)
    (name : List Nat) :
    (((Index.diff B A).filter (fun p => p.2 = name)).length =
      (if name ∈ A.filemetas.map FileMeta.filename ∨
          name ∈ B.filemetas.map FileMeta.filename then 1 else 0)) ∧
    ((DIffTag.Delete, name) ∈ Index.diff B A ↔
      name ∈ A.filemetas.map FileMeta.filename ∧
        ¬name ∈ B.filemetas.map FileMeta.filename) ∧
    ((DIffTag.Insert, name) ∈ Index.diff B A ↔
      name ∈ B.filemetas.map FileMeta.filename ∧
        ¬name ∈ A.filemetas.map FileMeta.filename) ∧
    ((DIffTag.Equal, name) ∈ Index.diff B A ↔
      ∃ h, lookupKV (A.filemetas.map (fun f => (f.filename, f.hash)))
          name = some h ∧
        lookupKV (B.filemetas.map (fun f => (f.filename, f.hash)))
          name = some h) ∧
    ((DIffTag.Replace, name) ∈ Index.diff B A ↔
      ∃ ha hb,
        lookupKV (A.filemetas.map (fun f => (f.filename, f.hash)))
          name = some ha ∧
        lookupKV (B.filemetas.map (fun f => (f.filename, f.hash)))
          name = some hb ∧ ha ≠ hb) := by
  have hAk : ((A.filemetas.map (fun f => (f.filename, f.hash))).map
      Prod.fst).Nodup := by
    rw [List.map_map]
    exact hA
  have hBk : ((B.filemetas.map (fun f => (f.filename, f.hash))).map
      Prod.fst).Nodup := by
    rw [List.map_map]
    exact hB
  have hkA : (A.filemetas.map (fun f => (f.filename, f.hash))).map
      Prod.fst = A.filemetas.map FileMeta.filename := by
    rw [List.map_map]
    rfl
  have hkB : (B.filemetas.map (fun f => (f.filename, f.hash))).map
      Prod.fst = B.filemetas.map FileMeta.filename := by
    rw [List.map_map]
    rfl
  have hdiff : Index.diff B A =
      ((A.filemetas.map (fun f => (f.filename, f.hash))).map
        (diffTagLine (B.filemetas.map (fun f => (f.filename, f.hash))))) ++
      ((B.filemetas.map (fun f => (f.filename, f.hash))).filterMap
        (fun kv =>
          if (lookupKV (A.filemetas.map (fun f => (f.filename, f.hash)))
              kv.1).isNone then some (DIffTag.Insert, kv.1)
          else none)) := by
    have h0 : Index.diff B A =
        ((mapOfPairs (A.filemetas.map (fun f => (f.filename, f.hash)))).map
          (diffTagLine (mapOfPairs (B.filemetas.map
            (fun f => (f.filename, f.hash)))))) ++
        ((mapOfPairs (B.filemetas.map
            (fun f => (f.filename, f.hash)))).filterMap
          (fun kv =>
            if (lookupKV (mapOfPairs (A.filemetas.map
                (fun f => (f.filename, f.hash)))) kv.1).isNone then
              some (DIffTag.Insert, kv.1)
            else none)) := rfl
    rw [h0, mapOfPairs_nodup _ hAk, mapOfPairs_nodup _ hBk]
  have hfilter : (Index.diff B A).filter (fun p => p.2 = name) =
      ((match lookupKV (A.filemetas.map (fun f => (f.filename, f.hash)))
          name with
        | none => ([] : List (DIffTag × List Nat))
        | some va =>
          [diffTagLine (B.filemetas.map (fun f => (f.filename, f.hash)))
            (name, va)]) ++
        (if name ∈ (B.filemetas.map (fun f => (f.filename, f.hash))).map
              Prod.fst ∧
            lookupKV (A.filemetas.map (fun f => (f.filename, f.hash)))
              name = none then
          [(DIffTag.Insert, name)] else [])) := by
    rw [hdiff, List.filter_append,
      old_part_filter (B.filemetas.map (fun f => (f.filename, f.hash)))
        name (A.filemetas.map (fun f => (f.filename, f.hash))) hAk,
      insert_part_filter (A.filemetas.map (fun f => (f.filename, f.hash)))
        name (B.filemetas.map (fun f => (f.filename, f.hash))) hBk]
  have hmemf : ∀ t : DIffTag, ((t, name) ∈ Index.diff B A ↔
      (t, name) ∈ (Index.diff B A).filter (fun p => p.2 = name)) := by
    intro t
    rw [List.mem_filter]
    simp
  rcases hLA : lookupKV (A.filemetas.map (fun f => (f.filename, f.hash)))
      name with - | ha
  · have hnA : ¬name ∈ A.filemetas.map FileMeta.filename := by
      rw [← hkA]
      exact (lookupKV_eq_none _ _).mp hLA
    rcases hLB : lookupKV (B.filemetas.map (fun f => (f.filename, f.hash)))
        name with - | hb
    · have hnB : ¬name ∈ B.filemetas.map FileMeta.filename := by
        rw [← hkB]
        exact (lookupKV_eq_none _ _).mp hLB
      have hflt : (Index.diff B A).filter (fun p => p.2 = name) = [] := by
        rw [hfilter, hLA]
        rw [if_neg (by rw [hkB]; exact fun hc => hnB hc.1)]
        rfl
      refine ⟨by rw [hflt]; simp [hnA, hnB], ?_, ?_, ?_, ?_⟩
      · rw [hmemf DIffTag.Delete, hflt]
        simp [hnA]
      · rw [hmemf DIffTag.Insert, hflt]
        simp [hnB]
      · rw [hmemf DIffTag.Equal, hflt]
        simp [hLA]
      · rw [hmemf DIffTag.Replace, hflt]
        simp [hLA]
    · have hmB : name ∈ B.filemetas.map FileMeta.filename := by
        rw [← hkB, ← hkB] at *
        have := lookupKV_some_mem _ _ _ hLB
        exact List.mem_map_of_mem Prod.fst this
      have hflt : (Index.diff B A).filter (fun p => p.2 = name) =
          [(DIffTag.Insert, name)] := by
        rw [hfilter, hLA]
        rw [if_pos ⟨by rw [hkB]; exact hmB, rfl⟩]
        rfl
      refine ⟨by rw [hflt]; simp [hmB], ?_, ?_, ?_, ?_⟩
      · rw [hmemf DIffTag.Delete, hflt]
        simp [hnA]
      · rw [hmemf DIffTag.Insert, hflt]
        simp [hmB, hnA]
      · rw [hmemf DIffTag.Equal, hflt]
        simp [hLA]
      · rw [hmemf DIffTag.Replace, hflt]
        simp [hLA]
  · have hmA : name ∈ A.filemetas.map FileMeta.filename := by
      rw [← hkA]
      have := lookupKV_some_mem _ _ _ hLA
      exact List.mem_map_of_mem Prod.fst this
    rcases hLB : lookupKV (B.filemetas.map (fun f => (f.filename, f.hash)))
        name with - | hb
    · have hnB : ¬name ∈ B.filemetas.map FileMeta.filename := by
        rw [← hkB]
        exact (lookupKV_eq_none _ _).mp hLB
      have hflt : (Index.diff B A).filter (fun p => p.2 = name) =
          [(DIffTag.Delete, name)] := by
        rw [hfilter, hLA]
        rw [if_neg (by intro hc; exact absurd hc.2 (by simp [hLA]))]
        simp [diffTagLine, hLB]
      refine ⟨by rw [hflt]; simp [hmA], ?_, ?_, ?_, ?_⟩
      · rw [hmemf DIffTag.Delete, hflt]
        simp [hmA, hnB]
      · rw [hmemf DIffTag.Insert, hflt]
        simp [hnB]
      · rw [hmemf DIffTag.Equal, hflt]
        simp [hLB]
      · rw [hmemf DIffTag.Replace, hflt]
        simp [hLB]
    · have hmB : name ∈ B.filemetas.map FileMeta.filename := by
        rw [← hkB]
        have := lookupKV_some_mem _ _ _ hLB
        exact List.mem_map_of_mem Prod.fst this
      have hflt : (Index.diff B A).filter (fun p => p.2 = name) =
          [if hb = ha then (DIffTag.Equal, name)
            else (DIffTag.Replace, name)] := by
        rw [hfilter, hLA]
        rw [if_neg (by intro hc; exact absurd hc.2 (by simp [hLA]))]
        simp [diffTagLine, hLB]
      by_cases hhash : hb = ha
      · rw [if_pos hhash] at hflt
        refine ⟨by rw [hflt]; simp [hmA], ?_, ?_, ?_, ?_⟩
        · rw [hmemf DIffTag.Delete, hflt]
          simp [hmB]
        · rw [hmemf DIffTag.Insert, hflt]
          simp [hmA]
        · rw [hmemf DIffTag.Equal, hflt]
          simp [hLA, hLB, hhash]
        · rw [hmemf DIffTag.Replace, hflt]
          simp [hLA, hLB, hhash]
      · rw [if_neg hhash] at hflt
        refine ⟨by rw [hflt]; simp [hmA], ?_, ?_, ?_, ?_⟩
        · rw [hmemf DIffTag.Delete, hflt]
          simp [hmB]
        · rw [hmemf DIffTag.Insert, hflt]
          simp [hmA]
        · rw [hmemf DIffTag.Equal, hflt]
          simp [hLA, hLB, hhash]
        · rw [hmemf DIffTag.Replace, hflt]
          simp only [List.mem_singleton, Prod.mk.injEq, true_and, hLA, hLB]
          constructor
          · intro _
            exact ⟨ha, hb, rfl, rfl, fun he => hhash he.symm⟩
          · intro _
            simp

/-- C8 witness: the characterization at the S5 indices and name `b`. -/
theorem index_diff_characterization_witness :
    (((Index.diff exIndexB exIndexA).filter
        (fun p => p.2 = [98])).length =
      (if [98] ∈ exIndexA.filemetas.map FileMeta.filename ∨
          [98] ∈ exIndexB.filemetas.map FileMeta.filename then 1 else 0)) ∧
    ((DIffTag.Delete, [98]) ∈ Index.diff exIndexB exIndexA ↔
      [98] ∈ exIndexA.filemetas.map FileMeta.filename ∧
        ¬[98] ∈ exIndexB.filemetas.map FileMeta.filename) ∧
    ((DIffTag.Insert, [98]) ∈ Index.diff exIndexB exIndexA ↔
      [98] ∈ exIndexB.filemetas.map FileMeta.filename ∧
        ¬[98] ∈ exIndexA.filemetas.map FileMeta.filename) ∧
    ((DIffTag.Equal, [98]) ∈ Index.diff exIndexB exIndexA ↔
      ∃ h, lookupKV (exIndexA.filemetas.map
          (fun f => (f.filename, f.hash))) [98] = some h ∧
        lookupKV (exIndexB.filemetas.map
          (fun f => (f.filename, f.hash))) [98] = some h) ∧
    ((DIffTag.Replace, [98]) ∈ Index.diff exIndexB exIndexA ↔
      ∃ ha hb,
        lookupKV (exIndexA.filemetas.map
          (fun f => (f.filename, f.hash))) [98] = some ha ∧
        lookupKV (exIndexB.filemetas.map
          (fun f => (f.filename, f.hash))) [98] = some hb ∧ ha ≠ hb) :=
  index_diff_characterization exIndexA exIndexB (by decide) (by decide)
    [98]

/-! ## C2: round-trip of the commit codec -/

theorem digitVal_digitChar (k : Nat) (h : k < 10) :
    digitVal (digitChar k) = some k := by
  interval_cases k <;> rfl

theorem digitChar_mem (k : Nat) :
    digitChar k ∈ ("0123456789".toList) := by
  rcases k with - | - | - | - | - | - | - | - | - | k <;> simp [digitChar]

theorem parseNatAux_append (xs ys : List Char) :
    ∀ acc, parseNatAux acc (xs ++ ys) =
      match parseNatAux acc xs with
      | none => none
      | some a => parseNatAux a ys := by
  induction xs with
  | nil => intro acc; rfl
  | cons c t ih =>
    intro acc
    rw [List.cons_append, parseNatAux, parseNatAux]
    rcases hd : digitVal c with - | d
    · rfl
    · exact ih _

theorem natDigitsAux_parse (f : Nat) :
    ∀ n acc, n < 10 ^ f →
      parseNatAux acc ((natDigitsAux f n).reverse) =
        some (acc * 10 ^ (natDigitsAux f n).length + n) := by
  induction f with
  | zero =>
    intro n acc hn
    interval_cases n
    simp [natDigitsAux, parseNatAux]
  | succ f ih =>
    intro n acc hn
    rcases n with - | m
    · simp [natDigitsAux, parseNatAux]
    · rw [natDigitsAux]
      have hdiv : (m + 1) / 10 < 10 ^ f := by
        rw [Nat.div_lt_iff_lt_mul (by omega)]
        calc m + 1 < 10 ^ (f + 1) := hn
        _ = 10 ^ f * 10 := by rw [pow_succ]
      rw [List.reverse_cons, parseNatAux_append]
      rw [ih ((m + 1) / 10) acc hdiv]
      simp only [parseNatAux, digitVal_digitChar _
        (Nat.mod_lt _ (by omega : 0 < 10))]
      have hdm := Nat.div_add_mod (m + 1) 10
      congr 1
      have hL : ∀ X : Nat,
          (acc * X + (m + 1) / 10) * 10 + (m + 1) % 10 =
            acc * (X * 10) + (m + 1) := by
        intro X
        calc (acc * X + (m + 1) / 10) * 10 + (m + 1) % 10
            = acc * (X * 10) + (10 * ((m + 1) / 10) + (m + 1) % 10) := by
              ring
          _ = acc * (X * 10) + (m + 1) := by rw [hdm]
      rw [List.length_cons, pow_succ]
      exact hL _

theorem parseNat_cons_ne_nil (l : List Char) (h : l ≠ []) :
    parseNat l = parseNatAux 0 l := by
  cases l with
  | nil => exact absurd rfl h
  | cons c t => rfl

theorem parseNat_natToStr (n : Nat) (hn : n < 10 ^ 40) :
    parseNat (natToStr n) = some n := by
  rcases n with - | m
  · rfl
  · have hcons : ∃ c t, natDigitsAux 40 (m + 1) = c :: t := by
      rw [natDigitsAux]
      exact ⟨_, _, rfl⟩
    obtain ⟨c, t, hct⟩ := hcons
    have hne : natToStr (m + 1) ≠ [] := by
      rw [natToStr, if_neg (by omega), hct]
      simp
    rw [parseNat_cons_ne_nil _ hne, natToStr, if_neg (by omega),
      natDigitsAux_parse 40 (m + 1) 0 hn]
    simp

theorem natDigitsAux_subset (f : Nat) :
    ∀ n, ∀ c ∈ natDigitsAux f n, c ∈ ("0123456789".toList) := by
  induction f with
  | zero =>
    intro n c
    rcases n with - | m
    · simp [natDigitsAux]
    · simp [natDigitsAux]
  | succ f ih =>
    intro n c
    rcases n with - | m
    · simp [natDigitsAux]
    · rw [natDigitsAux]
      intro hc
      rcases List.mem_cons.mp hc with hc1 | hc2
      · rw [hc1]
        exact digitChar_mem _
      · exact ih _ _ hc2

theorem natToStr_subset (n : Nat) :
    ∀ c ∈ natToStr n, c ∈ ("0123456789".toList) := by
  rw [natToStr]
  by_cases h : n = 0
  · rw [if_pos h]
    intro c hc
    simp only [List.mem_singleton] at hc
    rw [hc]
    simp
  · rw [if_neg h]
    intro c hc
    rw [List.mem_reverse] at hc
    exact natDigitsAux_subset 40 n c hc

theorem intToStr_subset (i : Int) :
    ∀ c ∈ intToStr i, c ∈ ('-' :: "0123456789".toList) := by
  rw [intToStr]
  by_cases h : i < 0
  · rw [if_pos h]
    intro c hc
    rcases List.mem_cons.mp hc with hc1 | hc2
    · rw [hc1]
      simp
    · exact List.mem_cons_of_mem _ (natToStr_subset _ _ hc2)
  · rw [if_neg h]
    intro c hc
    exact List.mem_cons_of_mem _ (natToStr_subset _ _ hc)

theorem natToStr_ne_nil (n : Nat) : natToStr n ≠ [] := by
  rw [natToStr]
  by_cases h : n = 0
  · rw [if_pos h]
    exact List.cons_ne_nil _ _
  · rw [if_neg h]
    rcases n with - | m
    · exact absurd rfl h
    · rw [natDigitsAux]
      simp

theorem intToStr_wsToken (i : Int) : wsToken (intToStr i) := by
  constructor
  · rw [intToStr]
    by_cases h : i < 0
    · rw [if_pos h]
      exact List.cons_ne_nil _ _
    · rw [if_neg h]
      exact natToStr_ne_nil _
  · intro c hc
    have := intToStr_subset i c hc
    fin_cases this <;> rfl

theorem parseI64_intToStr (i : Int) (h1 : -(2 ^ 63) ≤ i)
    (h2 : i < 2 ^ 63) : parseI64 (intToStr i) = some i := by
  by_cases h : i < 0
  · rw [intToStr, if_pos h, parseI64, if_pos rfl]
    have hb : (-i).toNat < 10 ^ 40 := by omega
    rw [parseNat_natToStr _ hb]
    show some (-(((-i).toNat : Nat) : Int)) = some i
    congr 1
    omega
  · have hne := natToStr_ne_nil i.toNat
    rcases hl : natToStr i.toNat with - | ⟨c, t⟩
    · exact absurd hl hne
    · have hcd : c ∈ ("0123456789".toList) := by
        apply natToStr_subset i.toNat
        rw [hl]
        simp
      have hcm : ¬c = '-' := by
        fin_cases hcd <;> decide
      have hcp : ¬c = '+' := by
        fin_cases hcd <;> decide
      rw [intToStr, if_neg h, hl, parseI64, if_neg hcm, if_neg hcp, ← hl]
      have hb : i.toNat < 10 ^ 40 := by omega
      rw [parseNat_natToStr _ hb]
      show some ((i.toNat : Nat) : Int) = some i
      congr 1
      omega

theorem splitOnNl_no_nl (x : List Char) (hx : '\n' ∉ x) :
    splitOnNl x = [x] := by
  induction x with
  | nil => rfl
  | cons c t ih =>
    simp only [List.mem_cons, not_or] at hx
    rw [splitOnNl, if_neg (fun hc => hx.1 hc.symm), ih hx.2]

theorem splitOnNl_append (x rest : List Char) (hx : '\n' ∉ x) :
    splitOnNl (x ++ '\n' :: rest) = x :: splitOnNl rest := by
  induction x with
  | nil =>
    rw [List.nil_append, splitOnNl, if_pos rfl]
  | cons c t ih =>
    simp only [List.mem_cons, not_or] at hx
    rw [List.cons_append, splitOnNl, if_neg (fun hc => hx.1 hc.symm),
      ih hx.2]

theorem splitWsGo_word (w : List Char)
    (hw : ∀ c ∈ w, isRustWs c = false) :
    ∀ cur rest, splitWsGo cur (w ++ rest) = splitWsGo (cur ++ w) rest := by
  induction w with
  | nil => intro cur rest; rw [List.nil_append, List.append_nil]
  | cons c t ih =>
    intro cur rest
    have hc : isRustWs c = false := hw c (by simp)
    rw [List.cons_append, splitWsGo, if_neg (by rw [hc]; simp),
      ih (fun x hx => hw x (by simp [hx]))]
    simp

theorem splitWs_pair (k w : List Char) (hk : wsToken k) (hw : wsToken w) :
    splitWs (k ++ ' ' :: w) = [k, w] := by
  rw [splitWs, splitWsGo_word k hk.2 [] (' ' :: w), List.nil_append]
  rw [splitWsGo, if_pos (by decide), if_neg hk.1]
  have := splitWsGo_word w hw.2 [] []
  rw [List.append_nil, List.nil_append] at this
  rw [this, splitWsGo, if_neg hw.1]

theorem splitWs_single (w : List Char) (hw : wsToken w) :
    splitWs w = [w] := by
  have h0 : splitWs w = splitWsGo [] (w ++ []) := by
    rw [List.append_nil]
    rfl
  rw [h0, splitWsGo_word w hw.2 [] [], List.nil_append, splitWsGo,
    if_neg hw.1]

theorem not_nl_mem (p : List Char) (hws : ∀ c ∈ p, isRustWs c = false) :
    '\n' ∉ p := by
  intro hm
  exact absurd (hws '\n' hm) (by decide)

theorem takeWhile_append_all {α : Type} (p : α → Bool) (xs ys : List α)
    (h : ∀ a ∈ xs, p a = true) :
    (xs ++ ys).takeWhile p = xs ++ ys.takeWhile p := by
  induction xs with
  | nil => rfl
  | cons a t ih =>
    rw [List.cons_append, List.takeWhile_cons_of_pos (h a (by simp)),
      ih (fun x hx => h x (by simp [hx])), List.cons_append]

theorem dropWhile_append_all {α : Type} (p : α → Bool) (xs ys : List α)
    (h : ∀ a ∈ xs, p a = true) :
    (xs ++ ys).dropWhile p = ys.dropWhile p := by
  induction xs with
  | nil => rfl
  | cons a t ih =>
    rw [List.cons_append, List.dropWhile_cons_of_pos (h a (by simp)),
      ih (fun x hx => h x (by simp [hx]))]

theorem procLine_tree (th : List Char) (h : wsToken th) (st : CommitAcc) :
    Commit.procLine st ("tree ".toList ++ th) =
      some { st with tree_hash := th } := by
  have he : "tree ".toList ++ th = "tree".toList ++ ' ' :: th := rfl
  rw [Commit.procLine, he, splitWs_pair _ _ (by decide) h]
  rfl

theorem procLine_parent (p : List Char) (h : wsToken p) (st : CommitAcc) :
    Commit.procLine st ("parent ".toList ++ p) =
      some { st with parents := st.parents ++ [p] } := by
  have he : "parent ".toList ++ p = "parent".toList ++ ' ' :: p := rfl
  rw [Commit.procLine, he, splitWs_pair _ _ (by decide) h]
  rfl

theorem procLine_author (a : List Char) (h : wsToken a) (st : CommitAcc) :
    Commit.procLine st ("author ".toList ++ a) =
      some { st with author := a } := by
  have he : "author ".toList ++ a = "author".toList ++ ' ' :: a := rfl
  rw [Commit.procLine, he, splitWs_pair _ _ (by decide) h]
  rfl

theorem procLine_committer (cm : List Char) (h : wsToken cm)
    (st : CommitAcc) :
    Commit.procLine st ("committer ".toList ++ cm) =
      some { st with committer := cm } := by
  have he : "committer ".toList ++ cm = "committer".toList ++ ' ' :: cm :=
    rfl
  rw [Commit.procLine, he, splitWs_pair _ _ (by decide) h]
  rfl

theorem procLine_date (d : List Char) (h : wsToken d) (st : CommitAcc) :
    Commit.procLine st ("date ".toList ++ d) =
      some { st with date := d } := by
  have he : "date ".toList ++ d = "date".toList ++ ' ' :: d := rfl
  rw [Commit.procLine, he, splitWs_pair _ _ (by decide) h]
  rfl

theorem procLine_msg (m : List Char) (hm : wsToken m)
    (h1 : m ≠ "tree".toList) (h2 : m ≠ "parent".toList)
    (h3 : m ≠ "author".toList) (h4 : m ≠ "committer".toList)
    (h5 : m ≠ "date".toList) (st : CommitAcc) :
    Commit.procLine st m = some { st with message := m } := by
  rw [Commit.procLine, splitWs_single m hm]
  simp only [List.cons.injEq]
  simp
  refine ⟨by simpa using h1, by simpa using h2, by simpa using h3,
    by simpa using h4, by simpa using h5⟩

theorem procLines_append (ls1 ls2 : List (List Char)) :
    ∀ st, Commit.procLines (ls1 ++ ls2) st =
      match Commit.procLines ls1 st with
      | none => none
      | some st2 => Commit.procLines ls2 st2 := by
  induction ls1 with
  | nil => intro st; rfl
  | cons l ls ih =>
    intro st
    simp only [List.cons_append, Commit.procLines]
    rcases h : Commit.procLine st l with - | st2
    · rfl
    · exact ih st2

theorem procLines_parents (ps : List (List Char))
    (hp : ∀ p ∈ ps, wsToken p) :
    ∀ st, Commit.procLines (ps.map (fun p => "parent ".toList ++ p)) st =
      some { st with parents := st.parents ++ ps } := by
  induction ps with
  | nil =>
    intro st
    rw [List.map_nil, List.append_nil]
    rfl
  | cons p ps ih =>
    intro st
    rw [List.map_cons]
    simp only [Commit.procLines]
    rw [procLine_parent p (hp p (by simp)) st]
    show Commit.procLines (ps.map (fun q => "parent ".toList ++ q))
      { st with parents := st.parents ++ [p] } = _
    rw [ih (fun q hq => hp q (by simp [hq]))]
    simp

theorem splitOnNl_parents (ps : List (List Char))
    (hp : ∀ p ∈ ps, wsToken p) (rest : List Char) :
    splitOnNl (Commit.parentsText ps ++ rest) =
      (ps.map (fun p => "parent ".toList ++ p)) ++ splitOnNl rest := by
  induction ps with
  | nil => rfl
  | cons p ps ih =>
    have hsh : Commit.parentsText (p :: ps) ++ rest =
        ("parent ".toList ++ p) ++
          '\n' :: (Commit.parentsText ps ++ rest) := by
      simp [Commit.parentsText]
    rw [hsh, splitOnNl_append _ _ (by
      intro hm
      rcases List.mem_append.mp hm with hm1 | hm2
      · exact absurd hm1 (by decide)
      · exact not_nl_mem p (hp p (by simp)).2 hm2)]
    rw [ih (fun q hq => hp q (by simp [hq]))]
    rfl

theorem splitOnNl_cons_nl (rest : List Char) :
    splitOnNl ('\n' :: rest) = [] :: splitOnNl rest := by
  simp [splitOnNl]

/-- Decoding the commit body recovers every field whose value survives the
tokenizer: single-word fields, the date at second resolution. -/
theorem commit_body_round (c : Commit)
    (ht : wsToken c.tree_hash)
    (hp : ∀ p ∈ c.parents, wsToken p)
    (ha : wsToken c.author)
    (hcm : wsToken c.committer)
    (hd1 : -(2 ^ 63) ≤ c.date.sec) (hd2 : c.date.sec < 2 ^ 63)
    (hm : ∀ ch ∈ c.message, isRustWs ch = false)
    (hm1 : c.message ≠ "tree".toList)
    (hm2 : c.message ≠ "parent".toList)
    (hm3 : c.message ≠ "author".toList)
    (hm4 : c.message ≠ "committer".toList)
    (hm5 : c.message ≠ "date".toList) :
    Commit.from_rawobject (Commit.contentText c) =
      some ⟨c.tree_hash, c.parents, c.author, c.committer,
        ⟨c.date.sec, 0⟩, c.message⟩ := by
  have h1 : Commit.contentText c =
      ("tree ".toList ++ c.tree_hash) ++ '\n' ::
        (Commit.parentsText c.parents ++
          (("author ".toList ++ c.author) ++ '\n' ::
            (("committer ".toList ++ c.committer) ++ '\n' ::
              (("date ".toList ++ intToStr c.date.sec) ++ '\n' :: '\n' ::
                (c.message ++ ['\n']))))) := rfl
  have hnl : ∀ (pre : List Char) (w : List Char),
      ('\n' ∉ pre) → (∀ ch ∈ w, isRustWs ch = false) →
      '\n' ∉ pre ++ w := by
    intro pre w hpre hw hmem
    rcases List.mem_append.mp hmem with hm1 | hm2
    · exact hpre hm1
    · exact not_nl_mem w hw hm2
  have hsplit : splitOnNl (Commit.contentText c) =
      ("tree ".toList ++ c.tree_hash) ::
        ((c.parents.map (fun p => "parent ".toList ++ p)) ++
          ("author ".toList ++ c.author) ::
            ("committer ".toList ++ c.committer) ::
              ("date ".toList ++ intToStr c.date.sec) :: [] ::
                c.message :: [[]]) := by
    rw [h1, splitOnNl_append _ _ (hnl _ _ (by decide) ht.2),
      splitOnNl_parents c.parents hp,
      splitOnNl_append _ _ (hnl _ _ (by decide) ha.2),
      splitOnNl_append _ _ (hnl _ _ (by decide) hcm.2),
      splitOnNl_append _ _ (hnl _ _ (by decide) (intToStr_wsToken _).2),
      splitOnNl_cons_nl, splitOnNl_append _ _ (not_nl_mem _ hm)]
    rfl
  have hfp : (c.parents.map (fun p => "parent ".toList ++ p)).filter
      (fun l => l ≠ []) = c.parents.map (fun p => "parent ".toList ++ p) := by
    apply List.filter_eq_self.mpr
    intro a hmem
    obtain ⟨p, hp2, rfl⟩ := List.mem_map.mp hmem
    simp
  simp only [Commit.from_rawobject, hsplit]
  rw [List.filter_cons_of_pos (by simp), List.filter_append, hfp,
    List.filter_cons_of_pos (by simp), List.filter_cons_of_pos (by simp),
    List.filter_cons_of_pos (by simp), List.filter_cons_of_neg (by simp)]
  by_cases hMnil : c.message = []
  · rw [List.filter_cons_of_neg (by simp [hMnil]),
      List.filter_cons_of_neg (by simp), List.filter_nil, hMnil]
    simp only [Commit.procLines, procLines_append,
      procLines_parents c.parents hp,
      procLine_tree c.tree_hash ht, procLine_author c.author ha,
      procLine_committer c.committer hcm,
      procLine_date (intToStr c.date.sec) (intToStr_wsToken _),
      List.nil_append, parseI64_intToStr c.date.sec hd1 hd2]
  · rw [List.filter_cons_of_pos (by simp [hMnil]),
      List.filter_cons_of_neg (by simp), List.filter_nil]
    simp only [Commit.procLines, procLines_append,
      procLines_parents c.parents hp,
      procLine_tree c.tree_hash ht, procLine_author c.author ha,
      procLine_committer c.committer hcm,
      procLine_date (intToStr c.date.sec) (intToStr_wsToken _),
      procLine_msg c.message ⟨hMnil, hm⟩ hm1 hm2 hm3 hm4 hm5,
      List.nil_append, parseI64_intToStr c.date.sec hd1 hd2]

theorem commit_header_take (c : Commit) :
    (Commit.as_bytes c).takeWhile (fun b => b ≠ '\x00') =
      "commit ".toList ++ natToStr (utf8Len (Commit.contentText c)) := by
  have hnz : ∀ a ∈ "commit ".toList ++
      natToStr (utf8Len (Commit.contentText c)),
      (fun b => decide (b ≠ '\x00')) a = true := by
    intro a hmem
    rcases List.mem_append.mp hmem with h1 | h2
    · fin_cases h1 <;> decide
    · have h3 := natToStr_subset _ a h2
      fin_cases h3 <;> decide
  rw [Commit.as_bytes]
  have hsh : "commit ".toList ++ natToStr (utf8Len (Commit.contentText c)) ++
      '\x00' :: Commit.contentText c =
      ("commit ".toList ++ natToStr (utf8Len (Commit.contentText c))) ++
      '\x00' :: Commit.contentText c := by simp
  rw [hsh, takeWhile_append_all _ _ _ hnz]
  simp [List.takeWhile]

theorem commit_header_drop (c : Commit) :
    ((Commit.as_bytes c).dropWhile (fun b => b ≠ '\x00')).tail =
      Commit.contentText c := by
  have hnz : ∀ a ∈ "commit ".toList ++
      natToStr (utf8Len (Commit.contentText c)),
      (fun b => decide (b ≠ '\x00')) a = true := by
    intro a hmem
    rcases List.mem_append.mp hmem with h1 | h2
    · fin_cases h1 <;> decide
    · have h3 := natToStr_subset _ a h2
      fin_cases h3 <;> decide
  rw [Commit.as_bytes]
  have hsh : "commit ".toList ++ natToStr (utf8Len (Commit.contentText c)) ++
      '\x00' :: Commit.contentText c =
      ("commit ".toList ++ natToStr (utf8Len (Commit.contentText c))) ++
      '\x00' :: Commit.contentText c := by simp
  rw [hsh, dropWhile_append_all _ _ _ hnz]
  simp [List.dropWhile]

theorem commit_header_type (c : Commit) :
    (("commit ".toList ++
        natToStr (utf8Len (Commit.contentText c))).takeWhile
      (fun ch => ch ≠ ' ')) = "commit".toList := by
  have hsh : "commit ".toList ++ natToStr (utf8Len (Commit.contentText c)) =
      "commit".toList ++ ' ' :: natToStr (utf8Len (Commit.contentText c)) :=
    rfl
  rw [hsh, takeWhile_append_all _ _ _ (by intro a h1; fin_cases h1 <;> decide)]
  simp [List.takeWhile]

/-- C2: decoding the canonical framing of a commit reconstructs the commit,
provided every textual field survives the whitespace tokenizer: tree hash,
parents, author and committer are single whitespace-free words, and the
message is one whitespace-free word distinct from the keywords; the date
comes back truncated to whole seconds. -/
theorem commit_round_trip (c : Commit)
    (ht : wsToken c.tree_hash)
    (hp : ∀ p ∈ c.parents, wsToken p)
    (ha : wsToken c.author)
    (hcm : wsToken c.committer)
    (hd1 : -(2 ^ 63) ≤ c.date.sec) (hd2 : c.date.sec < 2 ^ 63)
    (hm : ∀ ch ∈ c.message, isRustWs ch = false)
    (hm1 : c.message ≠ "tree".toList)
    (hm2 : c.message ≠ "parent".toList)
    (hm3 : c.message ≠ "author".toList)
    (hm4 : c.message ≠ "committer".toList)
    (hm5 : c.message ≠ "date".toList) :
    Object.from_content (Commit.as_bytes c) =
      some (Object.Commit ⟨c.tree_hash, c.parents, c.author, c.committer,
        ⟨c.date.sec, 0⟩, c.message⟩) := by
  have hbody := commit_body_round c ht hp ha hcm hd1 hd2 hm hm1 hm2 hm3
    hm4 hm5
  have hne : '\x00' ∈ Commit.as_bytes c := by
    rw [Commit.as_bytes]
    simp
  rw [Object.from_content, if_pos hne]
  simp only [commit_header_take c, commit_header_drop c,
    commit_header_type c]
  simp only [if_true]
  rw [hbody, if_neg (by decide), if_neg (by decide)]
  rfl

/-- A commit whose message holds a space decodes with only the first word
as the message: the encoder is not injective up to the decoder. -/
theorem commit_round_trip_cex :
    Object.from_content (Commit.as_bytes exCommitSpacedMsg) =
      some (Object.Commit
        { exCommitSpacedMsg with message := "hello".toList }) ∧
    "hello".toList ≠ exCommitSpacedMsg.message := by
  decide

/-- The round-trip theorem evaluated at the S3 commit. -/
theorem commit_round_trip_witness :
    Object.from_content (Commit.as_bytes exCommitS3) =
      some (Object.Commit ⟨exCommitS3.tree_hash, exCommitS3.parents,
        exCommitS3.author, exCommitS3.committer, ⟨exCommitS3.date.sec, 0⟩,
        exCommitS3.message⟩) :=
  commit_round_trip exCommitS3 (by decide) (by decide) (by decide)
    (by decide) (by decide) (by decide) (by decide) (by decide) (by decide)
    (by decide) (by decide) (by decide)

theorem get?_set_same {α : Type} :
    ∀ (v : List α) (i : Nat) (a : α), i < v.length →
      (v.set i a).get? i = some a := by
  intro v
  induction v with
  | nil => intro i a h; simp at h
  | cons b t ih =>
    intro i a h
    cases i with
    | zero => rfl
    | succ n =>
      simp only [List.set, List.get?]
      exact ih n a (by simpa using h)

theorem get?_set_other {α : Type} :
    ∀ (v : List α) (i j : Nat) (a : α), i ≠ j →
      (v.set i a).get? j = v.get? j := by
  intro v
  induction v with
  | nil => intro i j a _; simp [List.set]
  | cons b t ih =>
    intro i j a hij
    cases i with
    | zero =>
      cases j with
      | zero => exact absurd rfl hij
      | succ m => rfl
    | succ n =>
      cases j with
      | zero => rfl
      | succ m =>
        simp only [List.set, List.get?]
        exact ih n m a (fun he => hij (by rw [he]))

theorem count_false_set :
    ∀ (v : List Bool) (i : Nat), v.get? i = some false →
      (v.set i true).count false + 1 = v.count false := by
  intro v
  induction v with
  | nil => intro i h; simp at h
  | cons b t ih =>
    intro i h
    cases i with
    | zero =>
      simp only [List.get?] at h
      obtain rfl : b = false := by simpa using h
      simp [List.set, List.count_cons]
    | succ n =>
      simp only [List.get?] at h
      have := ih n h
      simp only [List.set, List.count_cons]
      omega

theorem count_false_replicate (n : Nat) :
    (List.replicate n false).count false = n := by
  induction n with
  | zero => rfl
  | succ m ih => simp [List.replicate, List.count_cons, ih]

theorem get?_replicate_lt (n i : Nat) (h : i < n) :
    (List.replicate n false).get? i = some false := by
  induction n generalizing i with
  | zero => omega
  | succ m ih =>
    cases i with
    | zero => rfl
    | succ k =>
      simp only [List.replicate, List.get?]
      exact ih k (by omega)

theorem posOf_lt_length {α : Type} [DecidableEq α] :
    ∀ (l : List α) (v : α) (i : Nat), posOf l v = some i → i < l.length := by
  intro l
  induction l with
  | nil => intro v i h; simp [posOf] at h
  | cons a t ih =>
    intro v i h
    rw [posOf] at h
    by_cases ha : a = v
    · rw [if_pos ha] at h
      obtain rfl : (0 : Nat) = i := by simpa using h
      simp
    · rw [if_neg ha] at h
      rcases hop : posOf t v with - | j
      · rw [hop] at h; simp at h
      · rw [hop] at h
        simp at h
        have := ih v j hop
        simp only [List.length_cons]
        omega

theorem posOf_mem {α : Type} [DecidableEq α] :
    ∀ (l : List α) (v : α), v ∈ l → ∃ i, posOf l v = some i := by
  intro l
  induction l with
  | nil => intro v h; simp at h
  | cons a t ih =>
    intro v h
    by_cases ha : a = v
    · exact ⟨0, by rw [posOf, if_pos ha]⟩
    · rcases List.mem_cons.mp h with h1 | h2
      · exact absurd h1.symm ha
      · obtain ⟨i, hi⟩ := ih v h2
        exact ⟨i + 1, by rw [posOf, if_neg ha, hi]; rfl⟩

theorem expand_spec (cur d : Nat) :
    ∀ (edges : List (Nat × Nat)) (visited : List Bool),
      (∀ p ∈ edges, p.2 < visited.length) →
      ∃ v2 pushes, expand edges cur d visited = some (v2, pushes) ∧
        v2.length = visited.length ∧
        (∀ i, visited.get? i = some true → v2.get? i = some true) ∧
        (∀ j, (cur, j) ∈ edges → v2.get? j = some true) ∧
        (∀ p ∈ pushes, p.2 = d + 1 ∧ v2.get? p.1 = some true) ∧
        (∀ i, v2.get? i = some true →
          visited.get? i = some true ∨ ∃ dd, (i, dd) ∈ pushes) ∧
        v2.count false + pushes.length = visited.count false := by
  intro edges
  induction edges with
  | nil =>
    intro visited _
    refine ⟨visited, [], rfl, rfl, fun i h => h, ?_, ?_, ?_, rfl⟩
    · intro j hj; simp at hj
    · intro p hp; simp at hp
    · intro i h; exact Or.inl h
  | cons pr rest ih =>
    intro visited hw
    obtain ⟨s, e⟩ := pr
    by_cases hs : s = cur
    · subst hs
      have he : e < visited.length := hw (s, e) (by simp)
      rcases hb : visited.get? e with - | b
      · have hg := List.get?_eq_get he
        rw [hb] at hg
        simp at hg
      · rcases b with - | -
        · have hw2 : ∀ p ∈ rest, p.2 < (visited.set e true).length := by
            intro p hp
            rw [List.length_set]
            exact hw p (by simp [hp])
          obtain ⟨v2, q, hexp, hlen, hmono, hsucc, hpush, hnew, hcnt⟩ :=
            ih (visited.set e true) hw2
          refine ⟨v2, (e, d + 1) :: q, ?_, ?_, ?_, ?_, ?_, ?_, ?_⟩
          · simp only [expand, eq_self_iff_true, if_true, hb,
              Bool.false_eq_true, if_false, hexp]
          · rw [hlen, List.length_set]
          · intro i h
            apply hmono
            by_cases hie : i = e
            · subst hie; rw [hb] at h; simp at h
            · rw [get?_set_other visited e i true (fun x => hie x.symm)]
              exact h
          · intro j hj
            rcases List.mem_cons.mp hj with h1 | h2
            · have hje : j = e := congrArg Prod.snd h1
              rw [hje]
              exact hmono e (get?_set_same visited e true he)
            · exact hsucc j h2
          · intro p hp
            rcases List.mem_cons.mp hp with h1 | h2
            · subst h1
              exact ⟨rfl, hmono e (get?_set_same visited e true he)⟩
            · exact hpush p h2
          · intro i h
            rcases hnew i h with h1 | ⟨dd, hdd⟩
            · by_cases hie : i = e
              · subst hie
                exact Or.inr ⟨d + 1, by simp⟩
              · rw [get?_set_other visited e i true
                  (fun x => hie x.symm)] at h1
                exact Or.inl h1
            · exact Or.inr ⟨dd, by simp [hdd]⟩
          · have hset := count_false_set visited e hb
            simp only [List.length_cons]
            omega
        · have hw2 : ∀ p ∈ rest, p.2 < visited.length := by
            intro p hp
            exact hw p (by simp [hp])
          obtain ⟨v2, q, hexp, hlen, hmono, hsucc, hpush, hnew, hcnt⟩ :=
            ih visited hw2
          refine ⟨v2, q, ?_, hlen, hmono, ?_, hpush, hnew, hcnt⟩
          · simp only [expand, eq_self_iff_true, if_true, hb, hexp]
          · intro j hj
            rcases List.mem_cons.mp hj with h1 | h2
            · have hje : j = e := congrArg Prod.snd h1
              rw [hje]
              exact hmono e hb
            · exact hsucc j h2
    · have hw2 : ∀ p ∈ rest, p.2 < visited.length := by
        intro p hp
        exact hw p (by simp [hp])
      obtain ⟨v2, q, hexp, hlen, hmono, hsucc, hpush, hnew, hcnt⟩ :=
        ih visited hw2
      refine ⟨v2, q, ?_, hlen, hmono, ?_, hpush, hnew, hcnt⟩
      · simp only [expand, hs, if_false, hexp]
      · intro j hj
        rcases List.mem_cons.mp hj with h1 | h2
        · exact absurd (congrArg Prod.fst h1).symm hs
        · exact hsucc j h2

theorem frontier_reach (edges : List (Nat × Nat)) (endId : Nat)
    (visited : List Bool) (queue : List (Nat × Nat))
    (hfront : ∀ i, visited.get? i = some true →
      (∃ dd, (i, dd) ∈ queue) ∨
      ∀ j, (i, j) ∈ edges → visited.get? j = some true) :
    ∀ i, Relation.ReflTransGen (edgeStep edges) i endId →
      visited.get? i = some true →
      visited.get? endId = some true ∨
      ∃ p ∈ queue, Relation.ReflTransGen (edgeStep edges) p.1 endId := by
  intro i hreach
  induction hreach using Relation.ReflTransGen.head_induction_on with
  | refl => intro hv; exact Or.inl hv
  | head hstep htail ihb =>
    intro hv
    rcases hfront _ hv with ⟨dd, hdd⟩ | hall
    · exact Or.inr ⟨(_, dd), hdd,
        Relation.ReflTransGen.head hstep htail⟩
    · exact ihb (hall _ hstep)

theorem bfsLoop_finds (edges : List (Nat × Nat)) (endId : Nat) :
    ∀ (fuel : Nat) (visited : List Bool) (queue : List (Nat × Nat)),
      (∀ p ∈ edges, p.2 < visited.length) →
      (∀ p ∈ queue, visited.get? p.1 = some true) →
      (∀ i, visited.get? i = some true →
        (∃ dd, (i, dd) ∈ queue) ∨
        ∀ j, (i, j) ∈ edges → visited.get? j = some true) →
      (visited.get? endId = some true → ∃ dd, (endId, dd) ∈ queue) →
      (visited.count false + queue.length ≤ fuel) →
      (∃ p ∈ queue, Relation.ReflTransGen (edgeStep edges) p.1 endId) →
      ∃ dres, bfsLoop edges endId fuel visited queue = some (some dres) := by
  intro fuel
  induction fuel with
  | zero =>
    intro visited queue _ _ _ _ hm hgoal
    obtain ⟨p, hp, -⟩ := hgoal
    rcases queue with - | ⟨q0, rest⟩
    · simp at hp
    · simp only [List.length_cons] at hm
      omega
  | succ fuel ih =>
    intro visited queue hw hq hfront hend hm hgoal
    rcases queue with - | ⟨⟨cur, d⟩, rest⟩
    · obtain ⟨p, hp, -⟩ := hgoal
      simp at hp
    · by_cases hc : cur = endId
      · subst hc
        exact ⟨d, by rw [bfsLoop, if_pos rfl]⟩
      · obtain ⟨v2, pushes, hexp, hlen, hmono, hsucc, hpush, hnew, hcnt⟩ :=
          expand_spec cur d edges visited hw
        have hfront2 : ∀ i, v2.get? i = some true →
            (∃ dd, (i, dd) ∈ rest ++ pushes) ∨
            ∀ j, (i, j) ∈ edges → v2.get? j = some true := by
          intro i hv
          rcases hnew i hv with hold | ⟨dd, hdd⟩
          · rcases hfront i hold with ⟨dd, hdd⟩ | hall
            · rcases List.mem_cons.mp hdd with h1 | h2
              · have hic : i = cur := congrArg Prod.fst h1
                subst hic
                exact Or.inr (fun j hj => hsucc j hj)
              · exact Or.inl ⟨dd, List.mem_append.mpr (Or.inl h2)⟩
            · exact Or.inr (fun j hj => hmono j (hall j hj))
          · exact Or.inl ⟨dd, List.mem_append.mpr (Or.inr hdd)⟩
        have hend2 : v2.get? endId = some true →
            ∃ dd, (endId, dd) ∈ rest ++ pushes := by
          intro hv
          rcases hnew endId hv with hold | ⟨dd, hdd⟩
          · obtain ⟨dd, hdd⟩ := hend hold
            rcases List.mem_cons.mp hdd with h1 | h2
            · exact absurd (congrArg Prod.fst h1).symm hc
            · exact ⟨dd, List.mem_append.mpr (Or.inl h2)⟩
          · exact ⟨dd, List.mem_append.mpr (Or.inr hdd)⟩
        have hgoal2 : ∃ p ∈ rest ++ pushes,
            Relation.ReflTransGen (edgeStep edges) p.1 endId := by
          obtain ⟨p, hp, hreach⟩ := hgoal
          rcases List.mem_cons.mp hp with h1 | h2
          · have hpc : p.1 = cur := congrArg Prod.fst h1
            rw [hpc] at hreach
            rcases Relation.ReflTransGen.cases_head hreach with heq | hstep
            · exact absurd heq hc
            · obtain ⟨j, hj, hjreach⟩ := hstep
              have hjv : v2.get? j = some true := hsucc j hj
              rcases frontier_reach edges endId v2 (rest ++ pushes)
                  hfront2 j hjreach hjv with hve | hfound
              · obtain ⟨dd, hdd⟩ := hend2 hve
                exact ⟨(endId, dd), hdd, Relation.ReflTransGen.refl⟩
              · exact hfound
          · exact ⟨p, List.mem_append.mpr (Or.inl h2), hreach⟩
        obtain ⟨dres, hres⟩ := ih v2 (rest ++ pushes)
          (by intro p hp; rw [hlen]; exact hw p hp)
          (by
            intro p hp
            rcases List.mem_append.mp hp with h1 | h2
            · exact hmono p.1 (hq p (by simp [h1]))
            · exact (hpush p h2).2)
          hfront2 hend2
          (by
            have h1 : rest.length + 1 = ((cur, d) :: rest).length := by
              simp
            rw [List.length_append]
            omega)
          hgoal2
        refine ⟨dres, ?_⟩
        rw [bfsLoop, if_neg hc, hexp]
        exact hres

theorem distance_reachable {α : Type} [DecidableEq α] (g : Graph α)
    (s x : α) (si xi : Nat)
    (hw : ∀ p ∈ g.edges, p.2 < g.vertexs.length)
    (hs : posOf g.vertexs s = some si)
    (hx : posOf g.vertexs x = some xi)
    (hreach : Relation.ReflTransGen (edgeStep g.edges) si xi) :
    ∃ d, Graph.distance g s x = some (some d) := by
  have hsi : si < g.vertexs.length := posOf_lt_length g.vertexs s si hs
  have hv0 : ∀ i, ((List.replicate g.vertexs.length false).set si
      true).get? i = some true → i = si := by
    intro i hi
    by_cases hisi : i = si
    · exact hisi
    · rw [get?_set_other _ si i true (fun hx2 => hisi hx2.symm)] at hi
      by_cases hlt : i < g.vertexs.length
      · rw [get?_replicate_lt _ i hlt] at hi
        simp at hi
      · rw [List.get?_eq_none.mpr (by simpa using hlt)] at hi
        simp at hi
  obtain ⟨d, hd⟩ := bfsLoop_finds g.edges xi g.vertexs.length
    ((List.replicate g.vertexs.length false).set si true) [(si, 0)]
    (by
      intro p hp
      rw [List.length_set, List.length_replicate]
      exact hw p hp)
    (by
      intro p hp
      simp only [List.mem_singleton] at hp
      subst hp
      exact get?_set_same _ si true
        (by rw [List.length_replicate]; exact hsi))
    (by
      intro i hi
      exact Or.inl ⟨0, by rw [hv0 i hi]; simp⟩)
    (by
      intro hi
      exact ⟨0, by rw [hv0 xi hi]; simp⟩)
    (by
      have hcs := count_false_set (List.replicate g.vertexs.length false)
        si (get?_replicate_lt _ si hsi)
      rw [count_false_replicate] at hcs
      simp only [List.length_singleton]
      omega)
    ⟨(si, 0), by simp, hreach⟩
  refine ⟨d, ?_⟩
  rw [Graph.distance, hs, hx]
  exact hd

theorem sumDist_some {α : Type} [DecidableEq α] (g h : Graph α)
    (s1 s2 x : α) (si1 si2 xi1 xi2 : Nat)
    (hw1 : ∀ p ∈ g.edges, p.2 < g.vertexs.length)
    (hw2 : ∀ p ∈ h.edges, p.2 < h.vertexs.length)
    (hs1 : posOf g.vertexs s1 = some si1)
    (hx1 : posOf g.vertexs x = some xi1)
    (hs2 : posOf h.vertexs s2 = some si2)
    (hx2 : posOf h.vertexs x = some xi2)
    (hr1 : Relation.ReflTransGen (edgeStep g.edges) si1 xi1)
    (hr2 : Relation.ReflTransGen (edgeStep h.edges) si2 xi2) :
    ∃ d, sumDist g h s1 s2 x = some d := by
  obtain ⟨d1, hd1⟩ := distance_reachable g s1 x si1 xi1 hw1 hs1 hx1 hr1
  obtain ⟨d2, hd2⟩ := distance_reachable h s2 x si2 xi2 hw2 hs2 hx2 hr2
  refine ⟨d1 + d2, ?_⟩
  rw [sumDist, hd1, hd2]
  rfl

theorem minByKey_spec {α : Type} :
    ∀ (l : List (Nat × α)), l ≠ [] →
      ∃ p, minByKey l = some p ∧ p ∈ l ∧ ∀ q ∈ l, p.1 ≤ q.1 := by
  intro l
  induction l with
  | nil => intro h; exact absurd rfl h
  | cons p rest ih =>
    intro _
    rcases hrest : rest with - | ⟨r0, rs⟩
    · exact ⟨p, by rw [minByKey, minByKey], by simp, by simp⟩
    · rw [← hrest]
      obtain ⟨q, hq, hqmem, hqmin⟩ := ih (by rw [hrest]; simp)
      by_cases hle : p.1 ≤ q.1
      · refine ⟨p, ?_, by simp, ?_⟩
        · rw [minByKey, hq]
          simp [hle]
        · intro q2 hq2
          rcases List.mem_cons.mp hq2 with h1 | h2
          · rw [h1]
          · exact le_trans hle (hqmin q2 h2)
      · refine ⟨q, ?_, by simp [hqmem], ?_⟩
        · rw [minByKey, hq]
          simp [hle]
        · intro q2 hq2
          rcases List.mem_cons.mp hq2 with h1 | h2
          · rw [h1]; omega
          · exact hqmin q2 h2

theorem distPairs_some {α : Type} [DecidableEq α] (g h : Graph α)
    (s1 s2 : α) :
    ∀ (xs : List α),
      (∀ x ∈ xs, ∃ d, sumDist g h s1 s2 x = some d) →
      ∃ ps, distPairs g h s1 s2 xs = some ps ∧
        ps.map Prod.snd = xs ∧
        ∀ pr ∈ ps, sumDist g h s1 s2 pr.2 = some pr.1 := by
  intro xs
  induction xs with
  | nil => intro _; exact ⟨[], rfl, rfl, by intro pr hpr; simp at hpr⟩
  | cons x rest ih =>
    intro hall
    obtain ⟨d, hd⟩ := hall x (by simp)
    obtain ⟨ps, hps, hmap, hpr⟩ := ih (fun y hy => hall y (by simp [hy]))
    refine ⟨(d, x) :: ps, ?_, by simp [hmap], ?_⟩
    · rw [distPairs, hd, hps]
      rfl
    · intro pr hpr2
      rcases List.mem_cons.mp hpr2 with h1 | h2
      · rw [h1]
        exact hd
      · exact hpr pr h2

theorem posOf_head {α : Type} [DecidableEq α] (a : α) (t : List α) :
    posOf (a :: t) a = some 0 := by
  simp [posOf]

theorem commons_sumDist {α : Type} [DecidableEq α]
    (s1 : α) (t1 : List α) (ge : List (Nat × Nat))
    (s2 : α) (t2 : List α) (eh : List (Nat × Nat))
    (hw1 : ∀ p ∈ ge, p.2 < (s1 :: t1).length)
    (hw2 : ∀ p ∈ eh, p.2 < (s2 :: t2).length)
    (hr : ∀ x ix1 ix2, x ∈ s1 :: t1 → x ∈ s2 :: t2 →
      posOf (s1 :: t1) x = some ix1 → posOf (s2 :: t2) x = some ix2 →
      Relation.ReflTransGen (edgeStep ge) 0 ix1 ∧
      Relation.ReflTransGen (edgeStep eh) 0 ix2) :
    ∀ x ∈ (s1 :: t1).filter (fun v => decide (v ∈ s2 :: t2)),
      ∃ d, sumDist ⟨s1 :: t1, ge⟩ ⟨s2 :: t2, eh⟩ s1 s2 x = some d := by
  intro x hx
  have hxg : x ∈ s1 :: t1 := List.mem_of_mem_filter hx
  have hxh : x ∈ s2 :: t2 := by
    have := List.of_mem_filter hx
    simpa using this
  obtain ⟨ix1, hix1⟩ := posOf_mem _ x hxg
  obtain ⟨ix2, hix2⟩ := posOf_mem _ x hxh
  obtain ⟨hre1, hre2⟩ := hr x ix1 ix2 hxg hxh hix1 hix2
  exact sumDist_some _ _ s1 s2 x 0 0 ix1 ix2 hw1 hw2
    (posOf_head s1 t1) hix1 (posOf_head s2 t2) hix2 hre1 hre2

/-- C9: on two nonempty graphs in which every vertex is reachable from the
first-inserted vertex and which share at least one value,
`common_vertex_value` returns a shared value whose summed BFS distances
from the two start vertices are minimal among all shared values. -/
theorem common_vertex_value_min {α : Type} [DecidableEq α]
    (s1 : α) (t1 : List α) (ge : List (Nat × Nat))
    (s2 : α) (t2 : List α) (eh : List (Nat × Nat))
    (hw1 : ∀ p ∈ ge, p.2 < (s1 :: t1).length)
    (hw2 : ∀ p ∈ eh, p.2 < (s2 :: t2).length)
    (hr1 : ∀ j, j < (s1 :: t1).length →
      Relation.ReflTransGen (edgeStep ge) 0 j)
    (hr2 : ∀ j, j < (s2 :: t2).length →
      Relation.ReflTransGen (edgeStep eh) 0 j)
    (c0 : α) (hc1 : c0 ∈ s1 :: t1) (hc2 : c0 ∈ s2 :: t2) :
    ∃ r dr,
      Graph.common_vertex_value (⟨s1 :: t1, ge⟩ : Graph α) ⟨s2 :: t2, eh⟩ =
        some (some r) ∧
      r ∈ s1 :: t1 ∧ r ∈ s2 :: t2 ∧
      sumDist ⟨s1 :: t1, ge⟩ ⟨s2 :: t2, eh⟩ s1 s2 r = some dr ∧
      ∀ x, x ∈ s1 :: t1 → x ∈ s2 :: t2 →
        ∃ dx, sumDist ⟨s1 :: t1, ge⟩ ⟨s2 :: t2, eh⟩ s1 s2 x = some dx ∧
          dr ≤ dx := by
  have hsum := commons_sumDist s1 t1 ge s2 t2 eh hw1 hw2
    (by
      intro x ix1 ix2 _ _ hix1 hix2
      exact ⟨hr1 ix1 (posOf_lt_length _ x ix1 hix1),
        hr2 ix2 (posOf_lt_length _ x ix2 hix2)⟩)
  obtain ⟨ps, hps, hmap, hpr⟩ := distPairs_some _ _ s1 s2 _ hsum
  have hcne : c0 ∈ (s1 :: t1).filter (fun v => decide (v ∈ s2 :: t2)) :=
    List.mem_filter.mpr ⟨hc1, by simpa using hc2⟩
  have hpsne : ps ≠ [] := by
    intro h0
    rw [h0] at hmap
    simp only [List.map_nil] at hmap
    rw [← hmap] at hcne
    simp at hcne
  obtain ⟨p, hpmin, hpmem, hple⟩ := minByKey_spec ps hpsne
  refine ⟨p.2, p.1, ?_, ?_, ?_, hpr p hpmem, ?_⟩
  · simp only [Graph.common_vertex_value]
    rw [hps]
    simp [hpmin]
  · have hmem2 : p.2 ∈ ps.map Prod.snd := List.mem_map.mpr ⟨p, hpmem, rfl⟩
    rw [hmap] at hmem2
    exact List.mem_of_mem_filter hmem2
  · have hmem2 : p.2 ∈ ps.map Prod.snd := List.mem_map.mpr ⟨p, hpmem, rfl⟩
    rw [hmap] at hmem2
    have := List.of_mem_filter hmem2
    simpa using this
  · intro x hxg hxh
    have hxc : x ∈ (s1 :: t1).filter (fun v => decide (v ∈ s2 :: t2)) :=
      List.mem_filter.mpr ⟨hxg, by simpa using hxh⟩
    rw [← hmap] at hxc
    obtain ⟨q, hqmem, hqsnd⟩ := List.mem_map.mp hxc
    refine ⟨q.1, ?_, hple q hqmem⟩
    have := hpr q hqmem
    rw [hqsnd] at this
    exact this

theorem exG1_reach : ∀ j, j < exG1.vertexs.length →
    Relation.ReflTransGen (edgeStep exG1.edges) 0 j := by
  intro j hj
  have hj5 : j < 5 := by simpa using hj
  have e01 : edgeStep exG1.edges 0 1 := by decide
  have e12 : edgeStep exG1.edges 1 2 := by decide
  have e13 : edgeStep exG1.edges 1 3 := by decide
  have e34 : edgeStep exG1.edges 3 4 := by decide
  interval_cases j
  · exact Relation.ReflTransGen.refl
  · exact Relation.ReflTransGen.head e01 Relation.ReflTransGen.refl
  · exact Relation.ReflTransGen.head e01
      (Relation.ReflTransGen.head e12 Relation.ReflTransGen.refl)
  · exact Relation.ReflTransGen.head e01
      (Relation.ReflTransGen.head e13 Relation.ReflTransGen.refl)
  · exact Relation.ReflTransGen.head e01
      (Relation.ReflTransGen.head e13
        (Relation.ReflTransGen.head e34 Relation.ReflTransGen.refl))

theorem exG2_reach : ∀ j, j < exG2.vertexs.length →
    Relation.ReflTransGen (edgeStep exG2.edges) 0 j := by
  intro j hj
  have hj3 : j < 3 := by simpa using hj
  have e01 : edgeStep exG2.edges 0 1 := by decide
  have e12 : edgeStep exG2.edges 1 2 := by decide
  interval_cases j
  · exact Relation.ReflTransGen.refl
  · exact Relation.ReflTransGen.head e01 Relation.ReflTransGen.refl
  · exact Relation.ReflTransGen.head e01
      (Relation.ReflTransGen.head e12 Relation.ReflTransGen.refl)

/-- At the S6 graphs the actual BFS distance sums are 2 + 1 = 3 for v2 and
3 + 2 = 5 for v1 (not 1 + 1 and 2 + 2): v2 sits two steps below v7.  The
returned value is still v2. -/
theorem common_vertex_value_min_cex :
    Graph.distance exG1 ("v7".toList) ("v2".toList) = some (some 2) ∧
    Graph.distance exG2 ("v5".toList) ("v2".toList) = some (some 1) ∧
    Graph.distance exG1 ("v7".toList) ("v1".toList) = some (some 3) ∧
    Graph.distance exG2 ("v5".toList) ("v1".toList) = some (some 2) ∧
    Graph.common_vertex_value exG1 exG2 = some (some ("v2".toList)) := by
  decide

/-- The minimality theorem at the S6 graphs, plus the concrete result v2. -/
theorem common_vertex_value_min_witness :
    (∃ r dr,
      Graph.common_vertex_value exG1 exG2 = some (some r) ∧
      r ∈ exG1.vertexs ∧ r ∈ exG2.vertexs ∧
      sumDist exG1 exG2 ("v7".toList) ("v5".toList) r = some dr ∧
      ∀ x, x ∈ exG1.vertexs → x ∈ exG2.vertexs →
        ∃ dx, sumDist exG1 exG2 ("v7".toList) ("v5".toList) x = some dx ∧
          dr ≤ dx) ∧
    Graph.common_vertex_value exG1 exG2 = some (some ("v2".toList)) := by
  constructor
  · exact common_vertex_value_min ("v7".toList)
      ["v4".toList, "v3".toList, "v2".toList, "v1".toList]
      [(0, 1), (1, 2), (1, 3), (3, 4)]
      ("v5".toList) ["v2".toList, "v1".toList] [(0, 1), (1, 2)]
      (by decide) (by decide) exG1_reach exG2_reach
      ("v2".toList) (by decide) (by decide)
  · decide

/-- C10: with nonempty arenas, in-range edges and every shared value
reachable from both start vertices, `common_vertex_value` evaluates without
panicking, and it yields `None` exactly when no value is shared; an empty
arena panics on `vertexs[0]`, and a shared value unreachable from a start
vertex panics on the `unwrap` of its BFS distance. -/
theorem common_vertex_value_partial {α : Type} [DecidableEq α]
    (s1 : α) (t1 : List α) (ge : List (Nat × Nat))
    (s2 : α) (t2 : List α) (eh : List (Nat × Nat))
    (hw1 : ∀ p ∈ ge, p.2 < (s1 :: t1).length)
    (hw2 : ∀ p ∈ eh, p.2 < (s2 :: t2).length)
    (hr : ∀ x ix1 ix2, x ∈ s1 :: t1 → x ∈ s2 :: t2 →
      posOf (s1 :: t1) x = some ix1 → posOf (s2 :: t2) x = some ix2 →
      Relation.ReflTransGen (edgeStep ge) 0 ix1 ∧
      Relation.ReflTransGen (edgeStep eh) 0 ix2) :
    (∃ res, Graph.common_vertex_value (⟨s1 :: t1, ge⟩ : Graph α)
        ⟨s2 :: t2, eh⟩ = some res ∧
      (res = none ↔ ∀ x ∈ s1 :: t1, x ∉ s2 :: t2)) ∧
    Graph.common_vertex_value (Graph.new : Graph Nat) exGOne = none ∧
    Graph.common_vertex_value exGUnreach exGOne = none := by
  refine ⟨?_, by decide, by decide⟩
  have hsum := commons_sumDist s1 t1 ge s2 t2 eh hw1 hw2 hr
  obtain ⟨ps, hps, hmap, hpr⟩ := distPairs_some _ _ s1 s2 _ hsum
  by_cases hdisj : ∀ x ∈ s1 :: t1, x ∉ s2 :: t2
  · have hfil : (s1 :: t1).filter (fun v => decide (v ∈ s2 :: t2)) = [] := by
      rw [List.filter_eq_nil_iff]
      intro a ha
      simpa using hdisj a ha
    refine ⟨none, ?_, ⟨fun _ => hdisj, fun _ => rfl⟩⟩
    simp only [Graph.common_vertex_value]
    rw [hfil]
    simp [distPairs, minByKey]
  · push_neg at hdisj
    obtain ⟨c0, hc0g, hc0h⟩ := hdisj
    have hcne : c0 ∈ (s1 :: t1).filter (fun v => decide (v ∈ s2 :: t2)) :=
      List.mem_filter.mpr ⟨hc0g, by simpa using hc0h⟩
    have hpsne : ps ≠ [] := by
      intro h0
      rw [h0] at hmap
      simp only [List.map_nil] at hmap
      rw [← hmap] at hcne
      simp at hcne
    obtain ⟨p, hpmin, hpmem, hple⟩ := minByKey_spec ps hpsne
    refine ⟨some p.2, ?_, ?_⟩
    · simp only [Graph.common_vertex_value]
      rw [hps]
      simp [hpmin]
    · constructor
      · intro h00
        simp at h00
      · intro hd
        exact absurd hc0h (hd c0 hc0g)

/-- The partiality theorem at the S6 graphs: defined, and not `None` since
v2 and v1 are shared. -/
theorem common_vertex_value_partial_witness :
    (∃ res, Graph.common_vertex_value exG1 exG2 = some res ∧
      (res = none ↔ ∀ x ∈ exG1.vertexs, x ∉ exG2.vertexs)) ∧
    Graph.common_vertex_value (Graph.new : Graph Nat) exGOne = none ∧
    Graph.common_vertex_value exGUnreach exGOne = none :=
  common_vertex_value_partial ("v7".toList)
    ["v4".toList, "v3".toList, "v2".toList, "v1".toList]
    [(0, 1), (1, 2), (1, 3), (3, 4)]
    ("v5".toList) ["v2".toList, "v1".toList] [(0, 1), (1, 2)]
    (by decide) (by decide)
    (fun x ix1 ix2 _ _ h1 h2 =>
      ⟨exG1_reach ix1 (posOf_lt_length _ x ix1 h1),
        exG2_reach ix2 (posOf_lt_length _ x ix2 h2)⟩)

end Nss
